import Mathlib

/-!
Shallow embedding of `src/file_organizer/src/file_organizer.cpp` (the
metadata-driven classification and collision-safe relocation engine) and
proofs about it.

Modelling conventions:
* a path is a list of components (`fs::path` with its `/` structure);
  a component is a list of characters (a C++ string);
* the filesystem is a finite association list from paths to regular-file
  records (`content`, `mtime`, `atime`, optional `btime`) together with a
  list of directories that were explicitly created; `fs::exists(q)` is
  "q is a prefix of some file path or of some created directory";
* syscall results that can fail (`statx` birth time, `last_write_time`,
  `stat`, `file_size`) are `Option`-valued inputs; `localtime_r` together
  with `put_time` field extraction is an abstract pure function
  `Int → Date` (fixed timezone);
* injectable I/O failure for `fs::create_directories` and `fs::rename`
  is modelled by boolean oracles in `World`;
* `std::to_string` on the collision counter is decimal rendering
  (`natDigits`); the unbounded `do { ... } while (fs::exists(...))` loop
  is run with fuel `|files| + |dirs| + 1`, which is proved sufficient
  (`exists_free_suffix`), so the fuelled loop agrees with the C++ loop;
* console logging and `verbose` are dropped; the dry-run log line
  `[Dry-Run] Would move ...` is retained as the outcome `WouldMove`.
-/

namespace FileOrganizer

/-- a path component / C++ string: a list of characters. -/
abbrev Name := List Char

/-- a filesystem path, as its list of components. -/
abbrev Path := List Name

/-- shorthand turning a Lean string literal into a component. -/
def nm (s : String) : Name := s.toList

/-- decimal digit character, as produced by `std::to_string`. -/
def digitCh (d : Nat) : Char := Char.ofNat (48 + d)

/-- fuelled decimal rendering helper (most significant digit first). -/
def natDigitsAux : Nat → Nat → List Char
  | 0, _ => []
  | fuel + 1, n => if n < 10 then [digitCh n] else natDigitsAux fuel (n / 10) ++ [digitCh (n % 10)]

/-- decimal rendering of a natural number, the model of `std::to_string`. -/
def natDigits (n : Nat) : List Char := natDigitsAux (n + 1) n

/-- index of the last `'.'` in a component, if any (`fs::path` extension search). -/
def lastDotIdx : List Char → Option Nat
  | [] => none
  | c :: cs =>
    match lastDotIdx cs with
    | some i => some (i + 1)
    | none => if c = '.' then some 0 else none

/-- stem/extension split of a filename following `fs::path::stem` and
`fs::path::extension`: the extension starts at the last dot and keeps it,
except that `"."`, `".."` and a filename whose only dot is its first
character (a dotfile) have an empty extension. -/
def splitExt (name : Name) : Name × Name :=
  if name = nm "." ∨ name = nm ".." then (name, [])
  else
    match lastDotIdx name with
    | none => (name, [])
    | some 0 => (name, [])
    | some i => (name.take i, name.drop i)

/-- disambiguated candidate filename
`target_file.stem() + "_" + std::to_string(counter) + target_file.extension()`
(file_organizer.cpp line 252). -/
def cand (stem ext : Name) (counter : Nat) : Name := stem ++ '_' :: (natDigits counter ++ ext)

/-- fuelled model of the `do { ... counter++; } while (fs::exists(final_target))`
loop (lines 249-254): starting at `n`, return the first index whose candidate
is not taken, giving up (and returning the current index) when fuel runs out.
The engine always supplies enough fuel for the loop to find a free name
(`exists_free_suffix`), so the give-up branch is never the result. -/
def findSuffixFrom (taken : Nat → Bool) : Nat → Nat → Nat
  | 0, n => n
  | fuel + 1, n => if taken n then findSuffixFrom taken fuel (n + 1) else n

/-- enumeration for time attributes (file_organizer.cpp lines 27-31). -/
inductive TimeAttribute where
  | Creation
  | Modification
  | Access
deriving DecidableEq, Repr

/-- size thresholds in bytes (file_organizer.cpp lines 34-38); defaults 1 MB / 10 MB. -/
structure SizeThresholds where
  small : Nat := 1 * 1024 * 1024
  medium : Nat := 10 * 1024 * 1024
deriving DecidableEq, Repr

/-- categorize a file size (file_organizer.cpp lines 41-49). -/
def categorize_size (size : Nat) (thresholds : SizeThresholds) : Name :=
  if size < thresholds.small then nm "small"
  else if size < thresholds.medium then nm "medium"
  else nm "large"

/-- results of the per-file metadata queries, `none` meaning the syscall
failed (statx without birth time, `last_write_time` with an error code,
`stat` failing, `fs::file_size` with an error code). -/
structure FileQueries where
  btime : Option Int
  mtime : Option Int
  atime : Option Int
  size : Option Nat
deriving DecidableEq, Repr

/-- retrieve the file time for the chosen attribute
(file_organizer.cpp lines 95-164): Creation tries the statx birth time and
falls through to the Modification branch when it is unavailable;
Modification and Access substitute the current wall-clock time `now` when
their query fails. -/
def get_file_time (q : FileQueries) (now : Int) : TimeAttribute → Int
  | .Creation =>
    match q.btime with
    | some t => t
    | none =>
      match q.mtime with
      | some t => t
      | none => now
  | .Modification =>
    match q.mtime with
    | some t => t
    | none => now
  | .Access =>
    match q.atime with
    | some t => t
    | none => now

/-- a calendar date as displayed by `put_time(&tm, "%Y/%m/%d")`:
`year` is the full year, `month` is 1-12, `day` is 1-31. -/
structure Date where
  year : Nat
  month : Nat
  day : Nat
deriving DecidableEq, Repr

/-- the `%m` / `%d` fields: zero-padded to two characters. -/
def pad2 (n : Nat) : Name := if n < 10 then '0' :: natDigits n else natDigits n

/-- the `%Y` field: the year in decimal. -/
def fmtYear (n : Nat) : Name := natDigits n

/-- metadata-based directory path `YYYY/MM/DD/<category>`
(file_organizer.cpp lines 167-196), as its list of components.
`loc` abstracts `to_time_t` + `localtime_r` + field extraction;
a failing `fs::file_size` is substituted by 0 (lines 183-187). -/
def get_metadata_based_dir (loc : Int → Date) (q : FileQueries) (now : Int)
    (attr : TimeAttribute) (thresholds : SizeThresholds) : List Name :=
  let file_time := get_file_time q now attr
  let d := loc file_time
  let file_size := q.size.getD 0
  [fmtYear d.year, pad2 d.month, pad2 d.day, categorize_size file_size thresholds]

/-- a regular file's persistent data: its bytes and its timestamps
(all preserved by `fs::rename`). -/
structure File where
  content : List Char
  mtime : Int
  atime : Int
  btime : Option Int
deriving DecidableEq, Repr

/-- the queries a healthy filesystem answers for an existing file:
modification/access times and size succeed, birth time is available
exactly when the filesystem records one. -/
def queriesOf (f : File) : FileQueries :=
  { btime := f.btime, mtime := some f.mtime, atime := some f.atime, size := some f.content.length }

/-- filesystem state: regular files (path to record) plus the directories
created so far. -/
structure State where
  files : List (Path × File)
  dirs : List Path
deriving DecidableEq, Repr

/-- association-list lookup of a file record by exact path. -/
def lookupFS : List (Path × File) → Path → Option File
  | [], _ => none
  | e :: es, p => if e.1 = p then some e.2 else lookupFS es p

/-- the keys (paths) of a file list. -/
def keysOf (l : List (Path × File)) : List Path := l.map (fun e => e.1)

/-- model of `fs::exists q`: some entry lives at `q` or below it
(a file at `q`, a file strictly inside the directory `q`, or a created
directory at or below `q`). -/
def existsAt (st : State) (q : Path) : Bool :=
  st.files.any (fun e => q.isPrefixOf e.1) || st.dirs.any (fun d => q.isPrefixOf d)

/-- model of `fs::is_directory q` for the walker's root: something lives
strictly below `q`, or `q` is (below) a created directory. -/
def isDirAt (st : State) (q : Path) : Bool :=
  st.files.any (fun e => q.isPrefixOf e.1 && q != e.1) || st.dirs.any (fun d => q.isPrefixOf d)

/-- the bytes `std::ifstream` reads at a path: the file's content, or
empty when no regular file is there (a failed stream reads nothing). -/
def contentAt (st : State) (p : Path) : List Char :=
  ((lookupFS st.files p).map File.content).getD []

/-- model of a successful `fs::rename src dst`: the entry keyed `src` is
re-keyed to `dst` in place.  The engine only renames onto paths where
nothing exists (`move_file_moved_fresh`), so the overwrite semantics of
POSIX rename is never exercised. -/
def renameKey (l : List (Path × File)) (src dst : Path) : List (Path × File) :=
  l.map (fun e => if e.1 = src then (dst, e.2) else e)

/-- external world: the timezone's calendar conversion and the I/O
failure oracles for directory creation and rename. -/
structure World where
  loc : Int → Date
  renameOk : Path → Path → Bool
  mkdirOk : Path → Bool

/-- run configuration: chosen time attribute, size thresholds, dry-run flag
(verbose only affects logging and is dropped). -/
structure Config where
  attr : TimeAttribute
  thresholds : SizeThresholds
  dry_run : Bool

/-- outcome of relocating one file.  `WouldMove` is the
`[Dry-Run] Would move ...` log line; the C++ function returns `true` for
everything except `Failed`. -/
inductive MoveOutcome where
  | Moved (dst : Path)
  | WouldMove (dst : Path)
  | SkippedIdentical
  | SkippedAlreadyCorrect
  | SkippedMissing
  | Failed
deriving DecidableEq, Repr

/-- the filename component of a path (`fs::path::filename`). -/
def fnameOf (p : Path) : Name := (p.getLast?).getD []

/-- move a single file (file_organizer.cpp lines 225-279).
Source equal to target: skip, already in the correct location.
Target exists: byte-compare; equal contents skip (`SkippedIdentical`),
different contents search `stem_N.ext` for the first unused N from 1.
Then either log the intended move (dry run) or rename; a rename that the
world refuses (or whose source vanished) is the caught
`fs::filesystem_error`, reported as `Failed` with no state change. -/
def move_file (w : World) (st : State) (source_file target_file : Path) (dry_run : Bool) :
    MoveOutcome × State :=
  if source_file = target_file then (.SkippedAlreadyCorrect, st)
  else
    let resolved : Option Path :=
      if existsAt st target_file then
        if contentAt st source_file = contentAt st target_file then none
        else
          let s := splitExt (fnameOf target_file)
          let taken : Nat → Bool := fun n =>
            existsAt st (target_file.dropLast ++ [cand s.1 s.2 n])
          let counter := findSuffixFrom taken (st.files.length + st.dirs.length + 1) 1
          some (target_file.dropLast ++ [cand s.1 s.2 counter])
      else some target_file
    match resolved with
    | none => (.SkippedIdentical, st)
    | some final_target =>
      if dry_run then (.WouldMove final_target, st)
      else if (lookupFS st.files source_file).isSome && w.renameOk source_file final_target then
        (.Moved final_target, { st with files := renameKey st.files source_file final_target })
      else (.Failed, st)

/-- the counter value at which the collision loop of `move_file` stops for
a given state and target. -/
def suffixCounter (st : State) (t : Path) : Nat :=
  findSuffixFrom
    (fun n =>
      existsAt st (t.dropLast ++ [cand (splitExt (fnameOf t)).1 (splitExt (fnameOf t)).2 n]))
    (st.files.length + st.dirs.length + 1) 1

/-- the disambiguated final target the collision loop of `move_file`
produces for a given state and target. -/
def resolvedPath (st : State) (t : Path) : Path :=
  t.dropLast ++ [cand (splitExt (fnameOf t)).1 (splitExt (fnameOf t)).2 (suffixCounter st t)]

/-- the extension directory segment (file_organizer.cpp lines 318-320):
the extension without its leading dot, verbatim, or `no_extension`. -/
def extSegOf (fname : Name) : Name :=
  if (splitExt fname).2 = [] then nm "no_extension" else (splitExt fname).2.drop 1

/-- process one snapshot entry (the body of the loop at
file_organizer.cpp lines 309-352): skip vanished files, build the target
directory `src/extension/YYYY/MM/DD/category`, ensure it exists (create
it unless dry-run; a refused creation skips the file as `Failed`),
then `move_file`. -/
def process_one (w : World) (cfg : Config) (src_directory : Path) (st : State)
    (file_path : Path) : MoveOutcome × State :=
  match lookupFS st.files file_path with
  | none => (.SkippedMissing, st)
  | some f =>
    let file_extension := extSegOf (fnameOf file_path)
    let extension_directory := src_directory ++ [file_extension]
    let metadata_subdir := get_metadata_based_dir w.loc (queriesOf f) 0 cfg.attr cfg.thresholds
    let target_directory := extension_directory ++ metadata_subdir
    let target_file_path := target_directory ++ [fnameOf file_path]
    if existsAt st target_directory then
      move_file w st file_path target_file_path cfg.dry_run
    else if cfg.dry_run then
      move_file w st file_path target_file_path cfg.dry_run
    else if w.mkdirOk target_directory then
      move_file w { st with dirs := target_directory :: st.dirs } file_path target_file_path
        cfg.dry_run
    else (.Failed, st)

/-- the sequential loop over the snapshot, collecting one outcome per entry. -/
def run_loop (w : World) (cfg : Config) (src_directory : Path) :
    State → List Path → State × List MoveOutcome
  | st, [] => (st, [])
  | st, p :: ps =>
    let r := process_one w cfg src_directory st p
    let rest := run_loop w cfg src_directory r.2 ps
    (rest.1, r.1 :: rest.2)

/-- collect all regular files strictly below the source directory
(file_organizer.cpp lines 283-300).  A root that is missing or not a
directory makes `recursive_directory_iterator` throw; the catch block
logs the error and the function returns the (empty) list collected so
far. -/
def collect_all_files (st : State) (src_directory : Path) : List Path :=
  if isDirAt st src_directory then
    (st.files.filter (fun e => src_directory.isPrefixOf e.1 && src_directory != e.1)).map
      (fun e => e.1)
  else []

/-- the engine (file_organizer.cpp lines 303-353): snapshot first, then
relocate each collected file in order. -/
def move_files_by_extension_and_metadata (w : World) (cfg : Config) (src_directory : Path)
    (st : State) : State × List MoveOutcome :=
  run_loop w cfg src_directory st (collect_all_files st src_directory)

/-- model of `main` after successful argument parsing
(file_organizer.cpp lines 418-455): no existence check is performed on
the source path; the engine runs and `main` returns 0. -/
def main_run (w : World) (cfg : Config) (st : State) (src_directory : Path) :
    Nat × State × List MoveOutcome :=
  let r := move_files_by_extension_and_metadata w cfg src_directory st
  (0, r.1, r.2)

/-- a world whose I/O never fails. -/
def healthy (w : World) : Prop :=
  (∀ a b, w.renameOk a b = true) ∧ (∀ d, w.mkdirOk d = true)

/-- a filename a regular file can actually carry (never the special
directory entries). -/
def wfName (fname : Name) : Prop := fname ≠ nm "." ∧ fname ≠ nm ".."

instance (fname : Name) : Decidable (wfName fname) := by
  unfold wfName
  infer_instance

/-- a path strictly below the source root (what the walker collects). -/
def srcUnder (src p : Path) : Prop := src <+: p ∧ src ≠ p

/-- the target directory the engine computes for a file record at a
given filename: `src/extension/YYYY/MM/DD/category`. -/
def targetDirOf (w : World) (cfg : Config) (src_directory : Path) (fname : Name) (f : File) :
    Path :=
  src_directory ++ [extSegOf fname] ++
    get_metadata_based_dir w.loc (queriesOf f) 0 cfg.attr cfg.thresholds

/-- the full target path the engine computes for a file record at a
given filename. -/
def targetOf (w : World) (cfg : Config) (src_directory : Path) (fname : Name) (f : File) :
    Path :=
  targetDirOf w cfg src_directory fname f ++ [fname]

/-- a file entry already sitting at exactly the path the engine would
send it to. -/
def wellPlaced (w : World) (cfg : Config) (src_directory : Path) (e : Path × File) : Prop :=
  e.1 = targetOf w cfg src_directory (fnameOf e.1) e.2

/-- outcomes of a run with no identical-content collisions, no vanished
files and no I/O failures. -/
def isMovedOrCorrect : MoveOutcome → Bool
  | .Moved _ => true
  | .SkippedAlreadyCorrect => true
  | _ => false

/-- the action a dry-run log line announces. -/
def intended : MoveOutcome → MoveOutcome
  | .WouldMove t => .Moved t
  | o => o

/-- a fixed timezone conversion used by the concrete example runs:
every timestamp falls on 2024-05-03. -/
def locM : Int → Date := fun _ => ⟨2024, 5, 3⟩

/-- a world whose I/O never fails, over `locM`. -/
def wUnit : World := ⟨locM, fun _ _ => true, fun _ => true⟩

/-- a concrete configuration: modification time, default thresholds, real run. -/
def cfgM : Config := ⟨.Modification, {}, false⟩

/-- a concrete configuration: modification time, default thresholds, dry run. -/
def cfgMD : Config := ⟨.Modification, {}, true⟩

/-- a small file with content AAAA. -/
def fileA : File := ⟨nm "AAAA", 100, 100, none⟩

/-- a small file with content BBBB. -/
def fileB : File := ⟨nm "BBBB", 100, 100, none⟩

/-- the source root of the concrete example runs. -/
def rootP : Path := [nm "root"]

/-- the empty filesystem. -/
def stEmpty : State := ⟨[], []⟩

/-- two files with the same name and different contents, in different
subdirectories of the root. -/
def stTwoDiff : State :=
  ⟨[([nm "root", nm "a", nm "x.txt"], fileA), ([nm "root", nm "b", nm "x.txt"], fileB)], []⟩

/-- two files with the same name and identical contents, in different
subdirectories of the root. -/
def stTwoSame : State :=
  ⟨[([nm "root", nm "a", nm "x.txt"], fileA), ([nm "root", nm "b", nm "x.txt"], fileA)], []⟩

/-- two files with distinct names, in different subdirectories of the root. -/
def stTwoNames : State :=
  ⟨[([nm "root", nm "a", nm "x.txt"], fileA), ([nm "root", nm "b", nm "y.txt"], fileB)], []⟩

/-- a single file with an upper-case extension. -/
def stJPG : State := ⟨[([nm "root", nm "d", nm "photo.JPG"], fileA)], []⟩

/-- rename-failure injection: renaming this one source path fails. -/
def failB : Path → Bool := fun a => a == [nm "root", nm "b", nm "x.txt"]

/-- a world in which renaming the `failB` path fails and everything else
succeeds. -/
def wFail : World := ⟨locM, fun a _ => ! failB a, fun _ => true⟩

/-- query results of a file whose size query fails. -/
def qNone : FileQueries := ⟨none, some 5, none, none⟩

end FileOrganizer

namespace FileOrganizer

/-! Basic properties of decimal rendering. -/

lemma natDigitsAux_stable (n : Nat) : ∀ f₁ f₂, n < f₁ → n < f₂ →
    natDigitsAux f₁ n = natDigitsAux f₂ n := by
  induction n using Nat.strong_induction_on with
  | _ n ih =>
    intro f₁ f₂ h₁ h₂
    match f₁, h₁ with
    | f₁ + 1, h₁ =>
      match f₂, h₂ with
      | f₂ + 1, h₂ =>
        simp only [natDigitsAux]
        by_cases h : n < 10
        · simp [h]
        · simp only [if_neg h]
          have hd : n / 10 < n := Nat.div_lt_self (by omega) (by omega)
          rw [ih (n / 10) hd f₁ f₂ (by omega) (by omega)]

lemma natDigits_unfold (n : Nat) :
    natDigits n = if n < 10 then [digitCh n] else natDigits (n / 10) ++ [digitCh (n % 10)] := by
  have hstep : natDigits n = if n < 10 then [digitCh n]
      else natDigitsAux n (n / 10) ++ [digitCh (n % 10)] := rfl
  by_cases h : n < 10
  · rw [hstep, if_pos h, if_pos h]
  · rw [hstep, if_neg h, if_neg h,
      natDigitsAux_stable (n / 10) n (n / 10 + 1) (by omega) (by omega)]
    rfl

lemma natDigits_ne_nil (n : Nat) : natDigits n ≠ [] := by
  rw [natDigits_unfold]
  split <;> simp

lemma digitCh_inj {a b : Nat} (ha : a < 10) (hb : b < 10) (h : digitCh a = digitCh b) :
    a = b := by
  interval_cases a <;> interval_cases b <;> first | rfl | exact absurd h (by decide)

lemma digitCh_ne_dot {a : Nat} (ha : a < 10) : digitCh a ≠ '.' := by
  interval_cases a <;> decide

lemma natDigits_dotFree (n : Nat) : '.' ∉ natDigits n := by
  induction n using Nat.strong_induction_on with
  | _ n ih =>
    rw [natDigits_unfold]
    by_cases h : n < 10
    · simp only [if_pos h, List.mem_singleton]
      exact fun hc => digitCh_ne_dot h hc.symm
    · simp only [if_neg h, List.mem_append, List.mem_singleton]
      rintro (hc | hc)
      · exact ih (n / 10) (Nat.div_lt_self (by omega) (by omega)) hc
      · exact digitCh_ne_dot (Nat.mod_lt _ (by omega)) hc.symm

lemma natDigits_inj {a b : Nat} (h : natDigits a = natDigits b) : a = b := by
  induction a using Nat.strong_induction_on generalizing b with
  | _ a ih =>
    rw [natDigits_unfold a, natDigits_unfold b] at h
    by_cases ha : a < 10 <;> by_cases hb : b < 10
    · simp only [if_pos ha, if_pos hb, List.cons.injEq] at h
      exact digitCh_inj ha hb h.1
    · exfalso
      simp only [if_pos ha, if_neg hb] at h
      have hl := congrArg List.length h
      simp only [List.length_singleton, List.length_append] at hl
      have h0 : (natDigits (b / 10)).length = 0 := by omega
      exact natDigits_ne_nil (b / 10) (List.length_eq_zero.mp h0)
    · exfalso
      simp only [if_neg ha, if_pos hb] at h
      have hl := congrArg List.length h
      simp only [List.length_singleton, List.length_append] at hl
      have h0 : (natDigits (a / 10)).length = 0 := by omega
      exact natDigits_ne_nil (a / 10) (List.length_eq_zero.mp h0)
    · simp only [if_neg ha, if_neg hb] at h
      obtain ⟨h1, h2⟩ := List.append_inj' h (by simp)
      have hdiv := ih (a / 10) (Nat.div_lt_self (by omega) (by omega)) h1
      have hmod := digitCh_inj (Nat.mod_lt _ (by omega)) (Nat.mod_lt _ (by omega))
        (by simpa using h2)
      omega

lemma cand_inj {stem ext : Name} {a b : Nat} (h : cand stem ext a = cand stem ext b) :
    a = b := by
  unfold cand at h
  have h1 : '_' :: (natDigits a ++ ext) = '_' :: (natDigits b ++ ext) :=
    List.append_inj_right h rfl
  have h2 : natDigits a ++ ext = natDigits b ++ ext := by injection h1
  exact natDigits_inj (List.append_inj_left' h2 rfl)

lemma mem_underscore_cand (stem ext : Name) (n : Nat) : '_' ∈ cand stem ext n := by
  simp [cand]

lemma cand_wf (stem ext : Name) (n : Nat) : wfName (cand stem ext n) := by
  constructor <;> intro h <;>
    · have hm := mem_underscore_cand stem ext n
      rw [h] at hm
      revert hm
      decide

/-! Properties of the last-dot search and the stem/extension split. -/

lemma lastDotIdx_none_of_dotFree : ∀ {cs : List Char}, '.' ∉ cs → lastDotIdx cs = none := by
  intro cs
  induction cs with
  | nil => intro _; rfl
  | cons c cs ih =>
    intro h
    have h1 : '.' ∉ cs := fun hc => h (List.mem_cons_of_mem _ hc)
    have h2 : ¬ c = '.' := fun hc => h (by simp [hc])
    simp [lastDotIdx, ih h1, h2]

lemma dotFree_of_lastDotIdx_none : ∀ {cs : List Char}, lastDotIdx cs = none → '.' ∉ cs := by
  intro cs
  induction cs with
  | nil => simp
  | cons c cs ih =>
    intro h
    simp only [lastDotIdx] at h
    cases hl : lastDotIdx cs with
    | some i => simp [hl] at h
    | none =>
      simp only [hl] at h
      by_cases hc : c = '.'
      · rw [if_pos hc] at h
        exact absurd h (by simp)
      · intro hmem
        rcases List.mem_cons.mp hmem with h1 | h1
        · exact hc h1.symm
        · exact ih hl h1

lemma lastDotIdx_append_of_dotFree {a b : List Char} (hb : '.' ∉ b) :
    lastDotIdx (a ++ b) = lastDotIdx a := by
  induction a with
  | nil => simp [lastDotIdx_none_of_dotFree hb, lastDotIdx]
  | cons c a ih =>
    simp only [List.cons_append, lastDotIdx, List.append_eq]
    rw [ih]

lemma lastDotIdx_append_dot {a r : List Char} (hr : '.' ∉ r) :
    lastDotIdx (a ++ '.' :: r) = some a.length := by
  induction a with
  | nil => simp [lastDotIdx, lastDotIdx_none_of_dotFree hr]
  | cons c a ih =>
    simp only [List.cons_append, lastDotIdx, List.append_eq]
    rw [ih]
    simp

lemma lastDotIdx_spec : ∀ {cs : List Char} {i : Nat}, lastDotIdx cs = some i →
    ∃ a r, cs = a ++ '.' :: r ∧ a.length = i ∧ '.' ∉ r := by
  intro cs
  induction cs with
  | nil => intro i h; cases h
  | cons c cs ih =>
    intro i h
    simp only [lastDotIdx] at h
    cases hl : lastDotIdx cs with
    | some j =>
      simp only [hl, Option.some.injEq] at h
      obtain ⟨a, r, hcs, hlen, hr⟩ := ih hl
      exact ⟨c :: a, r, by simp [hcs], by simp [hlen, ← h], hr⟩
    | none =>
      simp only [hl] at h
      by_cases hc : c = '.'
      · rw [if_pos hc] at h
        have h0 : i = 0 := by simpa using h.symm
        subst h0
        subst hc
        exact ⟨[], cs, by simp, rfl, dotFree_of_lastDotIdx_none hl⟩
      · rw [if_neg hc] at h
        cases h

lemma nm_dot : nm "." = ['.'] := rfl

lemma nm_dotdot : nm ".." = ['.', '.'] := rfl

lemma splitExt_of_dotFree {name : Name} (h : '.' ∉ name) : splitExt name = (name, []) := by
  have h1 : name ≠ nm "." := by rintro rfl; exact h (by decide)
  have h2 : name ≠ nm ".." := by rintro rfl; exact h (by decide)
  unfold splitExt
  rw [if_neg (by tauto), lastDotIdx_none_of_dotFree h]

lemma splitExt_dotfile {r : List Char} (hr : '.' ∉ r) : splitExt ('.' :: r) = ('.' :: r, []) := by
  by_cases hd : ('.' :: r : Name) = nm "." ∨ ('.' :: r : Name) = nm ".."
  · unfold splitExt
    rw [if_pos hd]
  · unfold splitExt
    rw [if_neg hd, show lastDotIdx ('.' :: r) = some 0 by simpa using lastDotIdx_append_dot (a := []) hr]

lemma splitExt_append_dot {a r : List Char} (ha : a ≠ []) (hne : a ++ '.' :: r ≠ nm "..")
    (hr : '.' ∉ r) : splitExt (a ++ '.' :: r) = (a, '.' :: r) := by
  have hlen : lastDotIdx (a ++ '.' :: r) = some a.length := lastDotIdx_append_dot hr
  have h1 : a ++ '.' :: r ≠ nm "." := by
    intro h
    rw [nm_dot] at h
    have hl := congrArg List.length h
    simp only [List.length_append, List.length_cons, List.length_singleton,
      List.length_nil] at hl
    have h0 : a.length = 0 := by omega
    exact ha (List.length_eq_zero.mp h0)
  obtain ⟨x, a', rfl⟩ : ∃ x a', a = x :: a' := by
    cases a with
    | nil => exact absurd rfl ha
    | cons x a' => exact ⟨x, a', rfl⟩
  unfold splitExt
  rw [if_neg (by tauto), hlen]
  show ((x :: a' ++ '.' :: r).take (x :: a').length, (x :: a' ++ '.' :: r).drop (x :: a').length)
    = (x :: a', '.' :: r)
  rw [List.take_left, List.drop_left]

lemma splitExt_cand (fname : Name) (hwf : wfName fname) (n : Nat) :
    splitExt (cand (splitExt fname).1 (splitExt fname).2 n) =
      ((splitExt fname).1 ++ '_' :: natDigits n, (splitExt fname).2) := by
  obtain ⟨hw1, hw2⟩ := hwf
  by_cases hd : fname = nm "." ∨ fname = nm ".."
  · exact absurd hd (by rintro (h | h); exacts [hw1 h, hw2 h])
  · cases hl : lastDotIdx fname with
    | none =>
      have hfree : '.' ∉ fname := dotFree_of_lastDotIdx_none hl
      rw [splitExt_of_dotFree hfree]
      have hc : cand fname [] n = fname ++ '_' :: natDigits n := by simp [cand]
      show splitExt (cand fname [] n) = (fname ++ '_' :: natDigits n, [])
      rw [hc]
      apply splitExt_of_dotFree
      simp only [List.mem_append, List.mem_cons]
      rintro (h | h | h)
      · exact hfree h
      · exact absurd h (by decide)
      · exact natDigits_dotFree n h
    | some i =>
      obtain ⟨a, r, rfl, hlen, hr⟩ := lastDotIdx_spec hl
      cases a with
      | nil =>
        simp only [List.nil_append] at hd ⊢
        rw [splitExt_dotfile hr]
        have hc : cand ('.' :: r) [] n = '.' :: (r ++ '_' :: natDigits n) := by simp [cand]
        show splitExt (cand ('.' :: r) [] n) = ('.' :: r ++ '_' :: natDigits n, [])
        rw [hc]
        rw [splitExt_dotfile (by
          simp only [List.mem_append, List.mem_cons]
          rintro (h | h | h)
          · exact hr h
          · exact absurd h (by decide)
          · exact natDigits_dotFree n h)]
        simp
      | cons x a' =>
        rw [splitExt_append_dot (by simp) (fun h => hd (Or.inr h)) hr]
        have hc : cand (x :: a') ('.' :: r) n = ((x :: a') ++ '_' :: natDigits n) ++ '.' :: r := by
          simp [cand]
        show splitExt (cand (x :: a') ('.' :: r) n) = ((x :: a') ++ '_' :: natDigits n, '.' :: r)
        rw [hc]
        apply splitExt_append_dot (by simp) ?_ hr
        intro h
        have hm : '_' ∈ ((x :: a') ++ '_' :: natDigits n) ++ '.' :: r := by simp
        rw [h] at hm
        revert hm
        decide

lemma extSegOf_cand (fname : Name) (hwf : wfName fname) (n : Nat) :
    extSegOf (cand (splitExt fname).1 (splitExt fname).2 n) = extSegOf fname := by
  unfold extSegOf
  rw [splitExt_cand fname hwf n]

/-! Characterization of the fuelled collision-counter loop. -/

lemma findSuffixFrom_spec (taken : Nat → Bool) :
    ∀ (fuel s : Nat), (∃ k, k < fuel ∧ taken (s + k) = false) →
      taken (findSuffixFrom taken fuel s) = false ∧ s ≤ findSuffixFrom taken fuel s ∧
        ∀ m, s ≤ m → m < findSuffixFrom taken fuel s → taken m = true := by
  intro fuel
  induction fuel with
  | zero =>
    rintro s ⟨k, hk, _⟩
    omega
  | succ fuel ih =>
    rintro s ⟨k, hk, hfree⟩
    simp only [findSuffixFrom]
    cases hts : taken s with
    | false =>
      rw [if_neg (by simp [hts])]
      exact ⟨hts, Nat.le_refl s, fun m h1 h2 => by omega⟩
    | true =>
      rw [if_pos rfl]
      have hk0 : k ≠ 0 := by
        rintro rfl
        rw [Nat.add_zero] at hfree
        rw [hfree] at hts
        cases hts
      obtain ⟨k', rfl⟩ : ∃ k', k = k' + 1 := ⟨k - 1, by omega⟩
      have hex : ∃ j, j < fuel ∧ taken (s + 1 + j) = false :=
        ⟨k', by omega, by rw [show s + 1 + k' = s + (k' + 1) by omega]; exact hfree⟩
      obtain ⟨h1, h2, h3⟩ := ih (s + 1) hex
      refine ⟨h1, by omega, fun m hm1 hm2 => ?_⟩
      rcases Nat.eq_or_lt_of_le hm1 with rfl | hm
      · exact hts
      · exact h3 m (by omega) hm2

lemma first_free_eq {taken : Nat → Bool} {s r₁ r₂ : Nat}
    (f₁ : taken r₁ = false) (l₁ : s ≤ r₁) (m₁ : ∀ m, s ≤ m → m < r₁ → taken m = true)
    (f₂ : taken r₂ = false) (l₂ : s ≤ r₂) (m₂ : ∀ m, s ≤ m → m < r₂ → taken m = true) :
    r₁ = r₂ := by
  rcases lt_trichotomy r₁ r₂ with h | h | h
  · rw [m₂ r₁ l₁ h] at f₁; cases f₁
  · exact h
  · rw [m₁ r₂ l₂ h] at f₂; cases f₂

/-! The engine always has enough fuel: among the first `|files| + |dirs| + 1`
candidate names, at least one is free. -/

lemma existsAt_iff {st : State} {q : Path} :
    existsAt st q = true ↔ ∃ e, e ∈ keysOf st.files ++ st.dirs ∧ q <+: e := by
  simp only [existsAt, Bool.or_eq_true, List.any_eq_true, List.isPrefixOf_iff_prefix,
    keysOf, List.mem_append, List.mem_map]
  constructor
  · rintro (⟨e, he, hp⟩ | ⟨d, hd, hp⟩)
    · exact ⟨e.1, Or.inl ⟨e, he, rfl⟩, hp⟩
    · exact ⟨d, Or.inr hd, hp⟩
  · rintro ⟨e, he | hd, hp⟩
    · obtain ⟨x, hx, rfl⟩ := he
      exact Or.inl ⟨x, hx, hp⟩
    · exact Or.inr ⟨e, hd, hp⟩

lemma pre_length_le {α : Type} {p e : List α} (h : p <+: e) : p.length ≤ e.length := by
  obtain ⟨t, rfl⟩ := h
  simp only [List.length_append]
  exact Nat.le_add_right _ _

lemma pre_eq_of_length {α : Type} {p₁ p₂ e : List α} (h₁ : p₁ <+: e) (h₂ : p₂ <+: e)
    (hl : p₁.length = p₂.length) : p₁ = p₂ := by
  obtain ⟨t₁, rfl⟩ := h₁
  obtain ⟨t₂, ht⟩ := h₂
  exact ((List.append_inj ht hl.symm).1).symm

lemma exists_free_suffix (st : State) (base : Path) (stem ext : Name) :
    ∃ k, k < st.files.length + st.dirs.length + 1 ∧
      existsAt st (base ++ [cand stem ext (1 + k)]) = false := by
  by_contra hcon
  push_neg at hcon
  set N := st.files.length + st.dirs.length + 1 with hN
  have htaken : ∀ k : Nat, ∃ e, k < N →
      e ∈ keysOf st.files ++ st.dirs ∧ (base ++ [cand stem ext (1 + k)]) <+: e := by
    intro k
    by_cases hk : k < N
    · have hne := hcon k hk
      have htrue : existsAt st (base ++ [cand stem ext (1 + k)]) = true := by
        cases hb : existsAt st (base ++ [cand stem ext (1 + k)]) with
        | false => exact absurd hb hne
        | true => rfl
      obtain ⟨e, he, hp⟩ := existsAt_iff.mp htrue
      exact ⟨e, fun _ => ⟨he, hp⟩⟩
    · exact ⟨[], fun h => absurd h hk⟩
  choose f hf using htaken
  have hmaps : ∀ k ∈ Finset.range N, f k ∈ (keysOf st.files ++ st.dirs).toFinset := by
    intro k hk
    rw [List.mem_toFinset]
    exact (hf k (Finset.mem_range.mp hk)).1
  have hcard : (keysOf st.files ++ st.dirs).toFinset.card < (Finset.range N).card := by
    have h1 : (keysOf st.files ++ st.dirs).toFinset.card ≤ (keysOf st.files ++ st.dirs).length :=
      List.toFinset_card_le _
    have h2 : (keysOf st.files ++ st.dirs).length = st.files.length + st.dirs.length := by
      simp [keysOf]
    rw [Finset.card_range]
    omega
  obtain ⟨a, ha, b, hb, hab, hfab⟩ :=
    Finset.exists_ne_map_eq_of_card_lt_of_maps_to hcard hmaps
  have ha' := hf a (Finset.mem_range.mp ha)
  have hb' := hf b (Finset.mem_range.mp hb)
  have heq : base ++ [cand stem ext (1 + a)] = base ++ [cand stem ext (1 + b)] := by
    apply pre_eq_of_length ha'.2 (hfab ▸ hb'.2)
    simp [List.length_append]
  have hcand : cand stem ext (1 + a) = cand stem ext (1 + b) := by
    have := List.append_inj_right heq rfl
    simpa using this
  exact hab (by have := cand_inj hcand; omega)

/-! Association-list filesystem lemmas. -/

lemma lookupFS_mem : ∀ {l : List (Path × File)} {p : Path} {f : File},
    lookupFS l p = some f → (p, f) ∈ l := by
  intro l
  induction l with
  | nil => intro p f h; cases h
  | cons e es ih =>
    intro p f h
    simp only [lookupFS] at h
    by_cases he : e.1 = p
    · rw [if_pos he] at h
      obtain ⟨p₀, f₀⟩ := e
      cases he
      injection h with h
      subst h
      exact List.mem_cons_self _ _
    · rw [if_neg he] at h
      exact List.mem_cons_of_mem _ (ih h)

lemma mem_lookupFS : ∀ {l : List (Path × File)} {p : Path} {f : File},
    (keysOf l).Nodup → (p, f) ∈ l → lookupFS l p = some f := by
  intro l
  induction l with
  | nil => intro p f _ h; cases h
  | cons e es ih =>
    intro p f hnd hm
    simp only [keysOf, List.map_cons, List.nodup_cons] at hnd
    rcases List.mem_cons.mp hm with rfl | hm'
    · simp [lookupFS]
    · have hne : e.1 ≠ p := by
        intro he
        exact hnd.1 (he ▸ List.mem_map.mpr ⟨(p, f), hm', rfl⟩)
      simp only [lookupFS, if_neg hne]
      exact ih hnd.2 hm'

lemma lookupFS_isSome_iff : ∀ {l : List (Path × File)} {p : Path},
    (lookupFS l p).isSome = true ↔ p ∈ keysOf l := by
  intro l
  induction l with
  | nil =>
    intro p
    constructor
    · intro h
      exact Bool.noConfusion h
    · intro h
      exact absurd h (List.not_mem_nil p)
  | cons e es ih =>
    intro p
    simp only [lookupFS, keysOf, List.map_cons, List.mem_cons]
    by_cases he : e.1 = p
    · rw [if_pos he]
      exact ⟨fun _ => Or.inl he.symm, fun _ => rfl⟩
    · rw [if_neg he]
      constructor
      · intro h
        exact Or.inr (ih.mp h)
      · rintro (h | h)
        · exact absurd h.symm he
        · exact ih.mpr h

lemma lookupFS_eq_none_iff {l : List (Path × File)} {p : Path} :
    lookupFS l p = none ↔ p ∉ keysOf l := by
  rw [← lookupFS_isSome_iff]
  cases lookupFS l p <;> simp

lemma keysOf_renameKey {l : List (Path × File)} {s d : Path} :
    keysOf (renameKey l s d) = (keysOf l).map (fun k => if k = s then d else k) := by
  induction l with
  | nil => rfl
  | cons e es ih =>
    simp only [renameKey, keysOf, List.map_cons] at ih ⊢
    by_cases he : e.1 = s
    · rw [if_pos he, if_pos he]
      exact congrArg _ ih
    · rw [if_neg he, if_neg he]
      exact congrArg _ ih

lemma nodup_map_replace {ks : List Path} {s d : Path} (hnd : ks.Nodup) (hd : d ∉ ks) :
    (ks.map (fun k => if k = s then d else k)).Nodup := by
  induction ks with
  | nil => simp
  | cons k ks ih =>
    simp only [List.nodup_cons] at hnd
    simp only [List.mem_cons] at hd
    push_neg at hd
    simp only [List.map_cons, List.nodup_cons]
    refine ⟨?_, ih hnd.2 hd.2⟩
    intro hmem
    obtain ⟨k', hk', heq⟩ := List.mem_map.mp hmem
    by_cases hks : k = s
    · rw [if_pos hks] at heq
      by_cases hk's : k' = s
      · rw [if_pos hk's] at heq
        exact hnd.1 (hks ▸ hk's ▸ hk')
      · rw [if_neg hk's] at heq
        exact hd.2 (heq ▸ hk')
    · rw [if_neg hks] at heq
      by_cases hk's : k' = s
      · rw [if_pos hk's] at heq
        exact hd.1 heq
      · rw [if_neg hk's] at heq
        exact hnd.1 (heq ▸ hk')

lemma nodup_keys_renameKey {l : List (Path × File)} {s d : Path}
    (hnd : (keysOf l).Nodup) (hd : d ∉ keysOf l) : (keysOf (renameKey l s d)).Nodup := by
  rw [keysOf_renameKey]
  exact nodup_map_replace hnd hd

lemma lookupFS_renameKey_other : ∀ {l : List (Path × File)} {s d q : Path},
    q ≠ s → q ≠ d → lookupFS (renameKey l s d) q = lookupFS l q := by
  intro l
  induction l with
  | nil => intro s d q _ _; rfl
  | cons e es ih =>
    intro s d q hqs hqd
    simp only [renameKey, List.map_cons]
    by_cases he : e.1 = s
    · rw [if_pos he]
      simp only [lookupFS]
      rw [if_neg (show ¬ ((d, e.2).1 = q) from fun h => hqd h.symm)]
      rw [if_neg (fun h : e.1 = q => hqs (h.symm.trans he))]
      exact ih hqs hqd
    · rw [if_neg he]
      simp only [lookupFS]
      by_cases heq : e.1 = q
      · rw [if_pos heq, if_pos heq]
      · rw [if_neg heq, if_neg heq]
        exact ih hqs hqd

lemma lookupFS_renameKey_dst : ∀ {l : List (Path × File)} {s d : Path} {f : File},
    (keysOf l).Nodup → d ∉ keysOf l → lookupFS l s = some f →
    lookupFS (renameKey l s d) d = some f := by
  intro l
  induction l with
  | nil => intro s d f _ _ h; cases h
  | cons e es ih =>
    intro s d f hnd hd hs
    simp only [lookupFS] at hs
    simp only [renameKey, List.map_cons]
    simp only [keysOf, List.map_cons, List.nodup_cons] at hnd
    simp only [keysOf, List.map_cons, List.mem_cons] at hd
    push_neg at hd
    by_cases he : e.1 = s
    · rw [if_pos he] at hs
      rw [if_pos he]
      injection hs with hs
      subst hs
      simp [lookupFS]
    · rw [if_neg he] at hs
      rw [if_neg he]
      simp only [lookupFS]
      rw [if_neg (show ¬ e.1 = d from fun h => hd.1 h.symm)]
      exact ih hnd.2 hd.2 hs

lemma renameKey_length {l : List (Path × File)} {s d : Path} :
    (renameKey l s d).length = l.length := by
  simp [renameKey]

lemma mem_renameKey {l : List (Path × File)} {s d : Path} {e' : Path × File}
    (h : e' ∈ renameKey l s d) :
    ∃ e ∈ l, e' = if e.1 = s then (d, e.2) else e := by
  obtain ⟨e, he, rfl⟩ := List.mem_map.mp h
  exact ⟨e, he, rfl⟩

/-! Existence-check helper lemmas. -/

lemma existsAt_of_key {st : State} {p : Path} (h : p ∈ keysOf st.files) :
    existsAt st p = true :=
  existsAt_iff.mpr ⟨p, List.mem_append.mpr (Or.inl h), List.prefix_rfl⟩

lemma existsAt_of_le_key {st : State} {q p : Path} (hq : q <+: p) (hp : p ∈ keysOf st.files) :
    existsAt st q = true :=
  existsAt_iff.mpr ⟨p, List.mem_append.mpr (Or.inl hp), hq⟩

lemma not_mem_keys_of_not_existsAt {st : State} {q : Path} (h : existsAt st q = false) :
    q ∉ keysOf st.files := by
  intro hm
  rw [existsAt_of_key hm] at h
  cases h

/-! Structural lemmas about `move_file`. -/

lemma move_file_src_eq {w : World} {st : State} {s t : Path} {dry : Bool} (h : s = t) :
    move_file w st s t dry = (.SkippedAlreadyCorrect, st) := by
  simp [move_file, h]

lemma move_file_identical_eq {w : World} {st : State} {s t : Path} {dry : Bool} (hne : s ≠ t)
    (hex : existsAt st t = true) (hc : contentAt st s = contentAt st t) :
    move_file w st s t dry = (.SkippedIdentical, st) := by
  simp [move_file, if_neg hne, hex, hc]

lemma move_file_free_eq {w : World} {st : State} {s t : Path} {dry : Bool} (hne : s ≠ t)
    (hex : existsAt st t = false) :
    move_file w st s t dry =
      if dry then (.WouldMove t, st)
      else if (lookupFS st.files s).isSome && w.renameOk s t then
        (.Moved t, { st with files := renameKey st.files s t })
      else (.Failed, st) := by
  simp [move_file, if_neg hne, hex]

lemma move_file_differ_eq {w : World} {st : State} {s t : Path} {dry : Bool} (hne : s ≠ t)
    (hex : existsAt st t = true) (hc : contentAt st s ≠ contentAt st t) :
    move_file w st s t dry =
      if dry then (.WouldMove (resolvedPath st t), st)
      else if (lookupFS st.files s).isSome && w.renameOk s (resolvedPath st t) then
        (.Moved (resolvedPath st t), { st with files := renameKey st.files s (resolvedPath st t) })
      else (.Failed, st) := by
  simp [move_file, if_neg hne, hex, hc, resolvedPath, suffixCounter]

lemma resolvedPath_free (st : State) (t : Path) :
    existsAt st (resolvedPath st t) = false ∧ 1 ≤ suffixCounter st t ∧
      ∀ m, 1 ≤ m → m < suffixCounter st t →
        existsAt st (t.dropLast ++ [cand (splitExt (fnameOf t)).1 (splitExt (fnameOf t)).2 m])
          = true := by
  obtain ⟨k, hk, hfree⟩ :=
    exists_free_suffix st t.dropLast (splitExt (fnameOf t)).1 (splitExt (fnameOf t)).2
  have hspec := findSuffixFrom_spec
    (fun n =>
      existsAt st (t.dropLast ++ [cand (splitExt (fnameOf t)).1 (splitExt (fnameOf t)).2 n]))
    (st.files.length + st.dirs.length + 1) 1 ⟨k, hk, hfree⟩
  exact ⟨hspec.1, hspec.2.1, hspec.2.2⟩

lemma move_file_dry_state {w : World} {st : State} {s t : Path} :
    (move_file w st s t true).2 = st := by
  by_cases hst : s = t
  · rw [move_file_src_eq hst]
  · cases hex : existsAt st t with
    | true =>
      by_cases hc : contentAt st s = contentAt st t
      · rw [move_file_identical_eq hst hex hc]
      · rw [move_file_differ_eq hst hex hc]
        simp
    | false =>
      rw [move_file_free_eq hst hex]
      simp

lemma move_file_state_cases {w : World} {st : State} {s t : Path} {dry : Bool} :
    (move_file w st s t dry).2 = st ∨
    ∃ q, (move_file w st s t dry).1 = .Moved q ∧ existsAt st q = false ∧
      (move_file w st s t dry).2 = { st with files := renameKey st.files s q } := by
  by_cases hst : s = t
  · rw [move_file_src_eq hst]
    exact Or.inl rfl
  · cases hex : existsAt st t with
    | true =>
      by_cases hc : contentAt st s = contentAt st t
      · rw [move_file_identical_eq hst hex hc]
        exact Or.inl rfl
      · rw [move_file_differ_eq hst hex hc]
        cases dry with
        | true => exact Or.inl rfl
        | false =>
          cases hg : ((lookupFS st.files s).isSome && w.renameOk s (resolvedPath st t)) with
          | false => simp [hg]
          | true =>
            refine Or.inr ⟨resolvedPath st t, ?_, (resolvedPath_free st t).1, ?_⟩ <;> simp [hg]
    | false =>
      rw [move_file_free_eq hst hex]
      cases dry with
      | true => exact Or.inl rfl
      | false =>
        cases hg : ((lookupFS st.files s).isSome && w.renameOk s t) with
        | false => simp [hg]
        | true =>
          refine Or.inr ⟨t, ?_, hex, ?_⟩ <;> simp [hg]

lemma move_file_moved_inv {w : World} {st : State} {s t q : Path} {dry : Bool}
    (h : (move_file w st s t dry).1 = .Moved q) :
    dry = false ∧ existsAt st q = false ∧
      (move_file w st s t dry).2 = { st with files := renameKey st.files s q } ∧
      (q = t ∨ q = resolvedPath st t) := by
  by_cases hst : s = t
  · rw [move_file_src_eq hst] at h
    exact absurd h (by simp)
  · cases hex : existsAt st t with
    | true =>
      by_cases hc : contentAt st s = contentAt st t
      · rw [move_file_identical_eq hst hex hc] at h
        exact absurd h (by simp)
      · rw [move_file_differ_eq hst hex hc] at h ⊢
        cases dry with
        | true => exact absurd h (by simp)
        | false =>
          cases hg : ((lookupFS st.files s).isSome && w.renameOk s (resolvedPath st t)) with
          | false => rw [if_neg (by simp)] at h; simp [hg] at h
          | true =>
            rw [if_neg (by simp)] at h ⊢
            rw [if_pos (by simp [hg])] at h ⊢
            have hq : q = resolvedPath st t := by
              have := h.symm
              simp only [MoveOutcome.Moved.injEq] at this
              exact this
            subst hq
            exact ⟨rfl, (resolvedPath_free st t).1, rfl, Or.inr rfl⟩
    | false =>
      rw [move_file_free_eq hst hex] at h ⊢
      cases dry with
      | true => exact absurd h (by simp)
      | false =>
        cases hg : ((lookupFS st.files s).isSome && w.renameOk s t) with
        | false => rw [if_neg (by simp)] at h; simp [hg] at h
        | true =>
          rw [if_neg (by simp)] at h ⊢
          rw [if_pos (by simp [hg])] at h ⊢
          have hq : q = t := by
            have := h.symm
            simp only [MoveOutcome.Moved.injEq] at this
            exact this
          subst hq
          exact ⟨rfl, hex, rfl, Or.inl rfl⟩

lemma move_file_failed_inv {w : World} {st : State} {s t : Path} {dry : Bool}
    (h : (move_file w st s t dry).1 = .Failed) :
    (move_file w st s t dry).2 = st ∧
      ((lookupFS st.files s).isSome = false ∨ ∃ b, w.renameOk s b = false) := by
  by_cases hst : s = t
  · rw [move_file_src_eq hst] at h
    exact absurd h (by simp)
  · cases hex : existsAt st t with
    | true =>
      by_cases hc : contentAt st s = contentAt st t
      · rw [move_file_identical_eq hst hex hc] at h
        exact absurd h (by simp)
      · rw [move_file_differ_eq hst hex hc] at h ⊢
        cases dry with
        | true => exact absurd h (by simp)
        | false =>
          cases hg : ((lookupFS st.files s).isSome && w.renameOk s (resolvedPath st t)) with
          | true => rw [if_neg (by simp), if_pos (by simp [hg])] at h; exact absurd h (by simp)
          | false =>
            refine ⟨by simp [hg], ?_⟩
            rcases Bool.and_eq_false_iff.mp hg with h1 | h1
            · exact Or.inl h1
            · exact Or.inr ⟨resolvedPath st t, h1⟩
    | false =>
      rw [move_file_free_eq hst hex] at h ⊢
      cases dry with
      | true => exact absurd h (by simp)
      | false =>
        cases hg : ((lookupFS st.files s).isSome && w.renameOk s t) with
        | true => rw [if_neg (by simp), if_pos (by simp [hg])] at h; exact absurd h (by simp)
        | false =>
          refine ⟨by simp [hg], ?_⟩
          rcases Bool.and_eq_false_iff.mp hg with h1 | h1
          · exact Or.inl h1
          · exact Or.inr ⟨t, h1⟩

lemma move_file_outcome_cases {w : World} {st : State} {s t : Path}
    (hs : (lookupFS st.files s).isSome = true) (hr : ∀ a b, w.renameOk a b = true) :
    (move_file w st s t false = (.SkippedAlreadyCorrect, st) ∧ s = t) ∨
    move_file w st s t false = (.SkippedIdentical, st) ∨
    ∃ q, move_file w st s t false = (.Moved q, { st with files := renameKey st.files s q }) ∧
      existsAt st q = false ∧ (q = t ∨ q = resolvedPath st t) := by
  by_cases hst : s = t
  · exact Or.inl ⟨move_file_src_eq hst, hst⟩
  · cases hex : existsAt st t with
    | true =>
      by_cases hc : contentAt st s = contentAt st t
      · exact Or.inr (Or.inl (move_file_identical_eq hst hex hc))
      · refine Or.inr (Or.inr ⟨resolvedPath st t, ?_, (resolvedPath_free st t).1, Or.inr rfl⟩)
        rw [move_file_differ_eq hst hex hc]
        simp [hs, hr]
    | false =>
      refine Or.inr (Or.inr ⟨t, ?_, hex, Or.inl rfl⟩)
      rw [move_file_free_eq hst hex]
      simp [hs, hr]

/-! Structural lemmas about `process_one` and the loop. -/

lemma process_one_none {w : World} {cfg : Config} {src : Path} {st : State} {p : Path}
    (hf : lookupFS st.files p = none) : process_one w cfg src st p = (.SkippedMissing, st) := by
  simp [process_one, hf]

lemma process_one_some {w : World} {cfg : Config} {src : Path} {st : State} {p : Path}
    {f : File} (hf : lookupFS st.files p = some f) :
    process_one w cfg src st p =
      if existsAt st (targetDirOf w cfg src (fnameOf p) f) then
        move_file w st p (targetOf w cfg src (fnameOf p) f) cfg.dry_run
      else if cfg.dry_run then
        move_file w st p (targetOf w cfg src (fnameOf p) f) cfg.dry_run
      else if w.mkdirOk (targetDirOf w cfg src (fnameOf p) f) then
        move_file w { st with dirs := targetDirOf w cfg src (fnameOf p) f :: st.dirs } p
          (targetOf w cfg src (fnameOf p) f) cfg.dry_run
      else (.Failed, st) := by
  simp only [process_one, hf, targetDirOf, targetOf]

lemma process_one_dry_state {w : World} {cfg : Config} {src : Path} {st : State} {p : Path}
    (hd : cfg.dry_run = true) : (process_one w cfg src st p).2 = st := by
  cases hf : lookupFS st.files p with
  | none => rw [process_one_none hf]
  | some f =>
    rw [process_one_some hf, hd]
    by_cases he : existsAt st (targetDirOf w cfg src (fnameOf p) f)
    · rw [if_pos he]
      exact move_file_dry_state
    · rw [if_neg he, if_pos rfl]
      exact move_file_dry_state

lemma move_file_preserve {w : World} {st : State} {s t q : Path} {dry : Bool}
    (hq : q ≠ s) (hqm : q ∈ keysOf st.files) :
    lookupFS (move_file w st s t dry).2.files q = lookupFS st.files q := by
  rcases @move_file_state_cases w st s t dry with h | ⟨v, _, hv2, hv3⟩
  · rw [h]
  · rw [hv3]
    exact lookupFS_renameKey_other hq
      (fun hqv => (not_mem_keys_of_not_existsAt hv2) (hqv ▸ hqm))

lemma process_one_preserve {w : World} {cfg : Config} {src : Path} {st : State} {p q : Path}
    (hq : q ≠ p) (hqm : q ∈ keysOf st.files) :
    lookupFS (process_one w cfg src st p).2.files q = lookupFS st.files q := by
  cases hf : lookupFS st.files p with
  | none => rw [process_one_none hf]
  | some f =>
    rw [process_one_some hf]
    by_cases he : existsAt st (targetDirOf w cfg src (fnameOf p) f)
    · rw [if_pos he]
      exact move_file_preserve hq hqm
    · rw [if_neg he]
      by_cases hd : cfg.dry_run = true
      · rw [if_pos hd]
        exact move_file_preserve hq hqm
      · rw [if_neg hd]
        by_cases hm : w.mkdirOk (targetDirOf w cfg src (fnameOf p) f) = true
        · rw [if_pos hm]
          exact @move_file_preserve w
            { st with dirs := targetDirOf w cfg src (fnameOf p) f :: st.dirs }
            p (targetOf w cfg src (fnameOf p) f) q cfg.dry_run hq hqm
        · rw [if_neg hm]

lemma run_loop_length {w : World} {cfg : Config} {src : Path} :
    ∀ (ps : List Path) (st : State), (run_loop w cfg src st ps).2.length = ps.length := by
  intro ps
  induction ps with
  | nil => intro st; rfl
  | cons p ps ih => intro st; simp [run_loop, ih]

/-! Adding a directory strictly above a path does not change its
existence check; used to compare dry runs with real runs. -/

lemma existsAt_dirs_cons {st : State} {d q : Path} :
    existsAt { st with dirs := d :: st.dirs } q = (existsAt st q || q.isPrefixOf d) := by
  simp only [existsAt, List.any_cons]
  cases st.files.any (fun e => q.isPrefixOf e.1) <;> cases hq : q.isPrefixOf d <;>
    cases st.dirs.any (fun x => q.isPrefixOf x) <;> rfl

lemma isPrefixOf_false_of_longer {q d : Path} (h : d.length < q.length) :
    q.isPrefixOf d = false := by
  cases hb : q.isPrefixOf d with
  | false => rfl
  | true =>
    rw [List.isPrefixOf_iff_prefix] at hb
    have := pre_length_le hb
    omega

lemma existsAt_dirs_cons_longer {st : State} {d q : Path} (h : d.length < q.length) :
    existsAt { st with dirs := d :: st.dirs } q = existsAt st q := by
  rw [existsAt_dirs_cons, isPrefixOf_false_of_longer h, Bool.or_false]

lemma findSuffixFrom_fuel_eq {taken : Nat → Bool} {f₁ f₂ s : Nat}
    (h : ∃ k, k < f₁ ∧ k < f₂ ∧ taken (s + k) = false) :
    findSuffixFrom taken f₁ s = findSuffixFrom taken f₂ s := by
  obtain ⟨k, h1, h2, hf⟩ := h
  have s1 := findSuffixFrom_spec taken f₁ s ⟨k, h1, hf⟩
  have s2 := findSuffixFrom_spec taken f₂ s ⟨k, h2, hf⟩
  exact first_free_eq s1.1 s1.2.1 s1.2.2 s2.1 s2.2.1 s2.2.2

lemma suffixCounter_dirs_cons {st : State} {d : Path} {x : Name} :
    suffixCounter { st with dirs := d :: st.dirs } (d ++ [x]) = suffixCounter st (d ++ [x]) := by
  have hdrop : (d ++ [x]).dropLast = d := List.dropLast_concat ..
  have hfun : (fun n => existsAt { st with dirs := d :: st.dirs }
        ((d ++ [x]).dropLast ++
          [cand (splitExt (fnameOf (d ++ [x]))).1 (splitExt (fnameOf (d ++ [x]))).2 n])) =
      (fun n => existsAt st
        ((d ++ [x]).dropLast ++
          [cand (splitExt (fnameOf (d ++ [x]))).1 (splitExt (fnameOf (d ++ [x]))).2 n])) := by
    funext n
    apply existsAt_dirs_cons_longer
    rw [hdrop]
    simp
  obtain ⟨k, hk, hfree⟩ := exists_free_suffix st (d ++ [x]).dropLast
    (splitExt (fnameOf (d ++ [x]))).1 (splitExt (fnameOf (d ++ [x]))).2
  simp only [suffixCounter, hfun]
  apply findSuffixFrom_fuel_eq
  refine ⟨k, ?_, hk, hfree⟩
  simp only [List.length_cons]
  omega

lemma resolvedPath_dirs_cons {st : State} {d : Path} {x : Name} :
    resolvedPath { st with dirs := d :: st.dirs } (d ++ [x]) = resolvedPath st (d ++ [x]) := by
  simp only [resolvedPath, suffixCounter_dirs_cons]

/-! A dry run of `move_file` announces exactly the move the real run
performs, whether or not the target directory had to be created first. -/

lemma intended_move_file_same {w : World} {st : State} {s : Path}
    (hs : (lookupFS st.files s).isSome = true) (hr : ∀ a b, w.renameOk a b = true) (t : Path) :
    intended (move_file w st s t true).1 = (move_file w st s t false).1 := by
  by_cases hst : s = t
  · rw [move_file_src_eq hst, move_file_src_eq hst]
    rfl
  · cases hex : existsAt st t with
    | true =>
      by_cases hc : contentAt st s = contentAt st t
      · rw [move_file_identical_eq hst hex hc, move_file_identical_eq hst hex hc]
        rfl
      · rw [move_file_differ_eq hst hex hc, move_file_differ_eq hst hex hc]
        simp [hs, hr, intended]
    | false =>
      rw [move_file_free_eq hst hex, move_file_free_eq hst hex]
      simp [hs, hr, intended]

lemma intended_move_file_dirs {w : World} {st : State} {s : Path}
    (hs : (lookupFS st.files s).isSome = true) (hr : ∀ a b, w.renameOk a b = true)
    (d : Path) (x : Name) :
    intended (move_file w st s (d ++ [x]) true).1 =
      (move_file w { st with dirs := d :: st.dirs } s (d ++ [x]) false).1 := by
  have hexP : existsAt { st with dirs := d :: st.dirs } (d ++ [x]) = existsAt st (d ++ [x]) :=
    existsAt_dirs_cons_longer (by simp)
  by_cases hst : s = d ++ [x]
  · rw [move_file_src_eq hst, move_file_src_eq hst]
    rfl
  · cases he : existsAt st (d ++ [x]) with
    | true =>
      by_cases hc : contentAt st s = contentAt st (d ++ [x])
      · rw [move_file_identical_eq hst he hc,
          @move_file_identical_eq w { st with dirs := d :: st.dirs } s (d ++ [x]) false hst
            (hexP.trans he) hc]
        rfl
      · rw [move_file_differ_eq hst he hc,
          @move_file_differ_eq w { st with dirs := d :: st.dirs } s (d ++ [x]) false hst
            (hexP.trans he) hc]
        rw [resolvedPath_dirs_cons]
        simp [hs, hr, intended]
    | false =>
      rw [move_file_free_eq hst he,
        @move_file_free_eq w { st with dirs := d :: st.dirs } s (d ++ [x]) false hst
          (hexP.trans he)]
      simp [hs, hr, intended]

lemma process_one_intended {w : World} {cfg : Config} {src : Path} {st : State} {p : Path}
    (hd : cfg.dry_run = true) (hw : healthy w) :
    intended (process_one w cfg src st p).1 =
      (process_one w { cfg with dry_run := false } src st p).1 := by
  obtain ⟨hr, hm⟩ := hw
  cases hf : lookupFS st.files p with
  | none =>
    rw [process_one_none hf, process_one_none hf]
    rfl
  | some f =>
    have hs : (lookupFS st.files p).isSome = true := by rw [hf]; rfl
    rw [process_one_some hf, @process_one_some w { cfg with dry_run := false } src st p f hf]
    have htd : targetDirOf w { cfg with dry_run := false } src (fnameOf p) f =
        targetDirOf w cfg src (fnameOf p) f := rfl
    have hto : targetOf w { cfg with dry_run := false } src (fnameOf p) f =
        targetOf w cfg src (fnameOf p) f := rfl
    have hdf : ({ cfg with dry_run := false } : Config).dry_run = false := rfl
    rw [htd, hto, hd, hdf]
    by_cases he : existsAt st (targetDirOf w cfg src (fnameOf p) f) = true
    · rw [if_pos he, if_pos he]
      exact intended_move_file_same hs hr _
    · rw [if_neg he, if_neg he, if_pos rfl, if_neg (by simp), if_pos (hm _)]
      exact intended_move_file_dirs hs hr (targetDirOf w cfg src (fnameOf p) f) (fnameOf p)

lemma run_loop_dry {w : World} {cfg : Config} {src : Path} (hd : cfg.dry_run = true) :
    ∀ (ps : List Path) (st : State),
      run_loop w cfg src st ps = (st, ps.map (fun p => (process_one w cfg src st p).1)) := by
  intro ps
  induction ps with
  | nil => intro st; rfl
  | cons p ps ih =>
    intro st
    simp only [run_loop, List.map_cons]
    rw [process_one_dry_state hd, ih st]

/-! Files the engine has placed sit exactly where the engine would send
them again. -/

lemma fnameOf_concat {l : Path} {x : Name} : fnameOf (l ++ [x]) = x := by
  simp [fnameOf, List.getLast?_concat]

lemma fnameOf_targetOf {w : World} {cfg : Config} {src : Path} {fn : Name} {f : File} :
    fnameOf (targetOf w cfg src fn f) = fn :=
  fnameOf_concat

lemma dropLast_targetOf {w : World} {cfg : Config} {src : Path} {fn : Name} {f : File} :
    (targetOf w cfg src fn f).dropLast = targetDirOf w cfg src fn f := by
  simp [targetOf, List.dropLast_concat]

lemma srcUnder_target_concat {w : World} {cfg : Config} {src : Path} {fn : Name} {f : File}
    (x : Name) : srcUnder src (targetDirOf w cfg src fn f ++ [x]) := by
  constructor
  · exact ⟨[extSegOf fn] ++ get_metadata_based_dir w.loc (queriesOf f) 0 cfg.attr cfg.thresholds
      ++ [x], by simp [targetDirOf]⟩
  · intro h
    have := congrArg List.length h
    simp [targetDirOf, get_metadata_based_dir, List.length_append] at this

lemma wellPlaced_target {w : World} {cfg : Config} {src : Path} {fn : Name} {f : File} :
    wellPlaced w cfg src (targetOf w cfg src fn f, f) := by
  unfold wellPlaced
  rw [show (targetOf w cfg src fn f, f).1 = targetOf w cfg src fn f from rfl, fnameOf_targetOf]

lemma wellPlaced_resolved {w : World} {cfg : Config} {src : Path} {fn : Name} {f : File}
    (hwf : wfName fn) (k : Nat) :
    wellPlaced w cfg src
      (targetDirOf w cfg src fn f ++ [cand (splitExt fn).1 (splitExt fn).2 k], f) := by
  unfold wellPlaced
  rw [show (targetDirOf w cfg src fn f ++ [cand (splitExt fn).1 (splitExt fn).2 k], f).1 =
    targetDirOf w cfg src fn f ++ [cand (splitExt fn).1 (splitExt fn).2 k] from rfl]
  rw [fnameOf_concat]
  unfold targetOf targetDirOf
  rw [extSegOf_cand fn hwf k]

lemma resolvedPath_targetOf {w : World} {cfg : Config} {src : Path} {fn : Name} {f : File}
    {st : State} :
    resolvedPath st (targetOf w cfg src fn f) =
      targetDirOf w cfg src fn f ++
        [cand (splitExt fn).1 (splitExt fn).2 (suffixCounter st (targetOf w cfg src fn f))] := by
  simp [resolvedPath, fnameOf_targetOf, dropLast_targetOf]

/-- a well-formed snapshot entry, after one processing step in a healthy
non-dry run, is skipped in place (already correct), skipped as an
identical duplicate, or moved to a fresh path that is itself well placed. -/
lemma process_one_step {w : World} {cfg : Config} {src : Path} {st : State} {p : Path}
    {f : File} (hw : healthy w) (hdry : cfg.dry_run = false)
    (hf : lookupFS st.files p = some f) (hwf : wfName (fnameOf p)) :
    ((process_one w cfg src st p).1 = .SkippedAlreadyCorrect ∧
      (process_one w cfg src st p).2.files = st.files ∧ wellPlaced w cfg src (p, f)) ∨
    ((process_one w cfg src st p).1 = .SkippedIdentical ∧
      (process_one w cfg src st p).2.files = st.files) ∨
    (∃ q, (process_one w cfg src st p).1 = .Moved q ∧
      (process_one w cfg src st p).2.files = renameKey st.files p q ∧
      q ∉ keysOf st.files ∧ wellPlaced w cfg src (q, f) ∧ srcUnder src q) := by
  obtain ⟨hr, hm⟩ := hw
  have hs : (lookupFS st.files p).isSome = true := by rw [hf]; rfl
  rw [process_one_some hf]
  by_cases he : existsAt st (targetDirOf w cfg src (fnameOf p) f) = true
  · rw [if_pos he, hdry]
    rcases @move_file_outcome_cases w st p (targetOf w cfg src (fnameOf p) f) hs hr with
      ⟨heq, hpt⟩ | heq | ⟨q, heq, hfree, hform⟩
    · rw [heq]
      exact Or.inl ⟨rfl, rfl, hpt⟩
    · rw [heq]
      exact Or.inr (Or.inl ⟨rfl, rfl⟩)
    · rw [heq]
      refine Or.inr (Or.inr ⟨q, rfl, rfl, not_mem_keys_of_not_existsAt hfree, ?_, ?_⟩)
      · rcases hform with rfl | rfl
        · exact wellPlaced_target
        · rw [resolvedPath_targetOf]
          exact wellPlaced_resolved hwf _
      · rcases hform with rfl | rfl
        · exact srcUnder_target_concat (fnameOf p)
        · rw [resolvedPath_targetOf]
          exact srcUnder_target_concat _
  · rw [if_neg he, hdry, if_neg (by simp), if_pos (hm _)]
    have hkeysP : keysOf ({ st with
        dirs := targetDirOf w cfg src (fnameOf p) f :: st.dirs } : State).files =
      keysOf st.files := rfl
    rcases @move_file_outcome_cases w
        { st with dirs := targetDirOf w cfg src (fnameOf p) f :: st.dirs }
        p (targetOf w cfg src (fnameOf p) f) hs hr with
      ⟨heq, hpt⟩ | heq | ⟨q, heq, hfree, hform⟩
    · rw [heq]
      exact Or.inl ⟨rfl, rfl, hpt⟩
    · rw [heq]
      exact Or.inr (Or.inl ⟨rfl, rfl⟩)
    · rw [heq]
      refine Or.inr (Or.inr ⟨q, rfl, rfl,
        hkeysP ▸ not_mem_keys_of_not_existsAt hfree, ?_, ?_⟩)
      · rcases hform with rfl | rfl
        · exact wellPlaced_target
        · rw [resolvedPath_targetOf]
          exact wellPlaced_resolved hwf _
      · rcases hform with rfl | rfl
        · exact srcUnder_target_concat (fnameOf p)
        · rw [resolvedPath_targetOf]
          exact srcUnder_target_concat _

lemma run_loop_cons {w : World} {cfg : Config} {src : Path} {st : State} {p : Path}
    {ps : List Path} :
    run_loop w cfg src st (p :: ps) =
      ((run_loop w cfg src (process_one w cfg src st p).2 ps).1,
        (process_one w cfg src st p).1 ::
          (run_loop w cfg src (process_one w cfg src st p).2 ps).2) := rfl

/-- the main induction for the first run: starting from a state whose
source files are either already well placed or still waiting in the
remaining snapshot, a healthy non-dry run whose outcomes are all
`Moved`/`SkippedAlreadyCorrect` ends with every source file well placed. -/
lemma run1_invariant {w : World} {cfg : Config} {src : Path} (hw : healthy w)
    (hdry : cfg.dry_run = false) :
    ∀ (R : List Path) (st : State),
      (keysOf st.files).Nodup → R.Nodup →
      (∀ q ∈ R, (∃ f, lookupFS st.files q = some f) ∧ wfName (fnameOf q)) →
      (∀ e ∈ st.files, srcUnder src e.1 → wellPlaced w cfg src e ∨ e.1 ∈ R) →
      (∀ o ∈ (run_loop w cfg src st R).2, isMovedOrCorrect o = true) →
      (keysOf (run_loop w cfg src st R).1.files).Nodup ∧
        ∀ e ∈ (run_loop w cfg src st R).1.files, srcUnder src e.1 → wellPlaced w cfg src e := by
  intro R
  induction R with
  | nil =>
    intro st h1 _ _ h4 _
    refine ⟨h1, fun e he hs => ?_⟩
    rcases h4 e he hs with h | h
    · exact h
    · exact absurd h (List.not_mem_nil _)
  | cons p R ih =>
    intro st hnd hRnd hR hC hout
    obtain ⟨⟨f, hf⟩, hwfp⟩ := hR p (List.mem_cons_self _ _)
    have hpR : p ∉ R := (List.nodup_cons.mp hRnd).1
    have hout1 : isMovedOrCorrect (process_one w cfg src st p).1 = true := by
      apply hout
      rw [run_loop_cons]
      exact List.mem_cons_self _ _
    have houtR : ∀ o ∈ (run_loop w cfg src (process_one w cfg src st p).2 R).2,
        isMovedOrCorrect o = true := by
      intro o ho
      apply hout
      rw [run_loop_cons]
      exact List.mem_cons_of_mem _ ho
    have hfst : (run_loop w cfg src st (p :: R)).1 =
        (run_loop w cfg src (process_one w cfg src st p).2 R).1 := by
      rw [run_loop_cons]
    rw [hfst]
    rcases process_one_step hw hdry hf hwfp with
      ⟨_, hfiles, hwp⟩ | ⟨ho, _⟩ | ⟨q, _, hfiles, hqk, hwq, hsq⟩
    · apply ih
      · rw [show keysOf (process_one w cfg src st p).2.files = keysOf st.files by
          rw [keysOf, hfiles]; rfl]
        exact hnd
      · exact (List.nodup_cons.mp hRnd).2
      · intro r hr
        have := hR r (List.mem_cons_of_mem _ hr)
        rwa [show lookupFS (process_one w cfg src st p).2.files r = lookupFS st.files r by
          rw [hfiles]]
      · intro e he hsrc
        rw [hfiles] at he
        rcases hC e he hsrc with hw' | hmem
        · exact Or.inl hw'
        · rcases List.mem_cons.mp hmem with hep | heR
          · left
            have hrec : lookupFS st.files e.1 = some e.2 := mem_lookupFS hnd he
            rw [hep, hf] at hrec
            injection hrec with hrec
            have he2 : e = (p, f) := by
              obtain ⟨e1, e2⟩ := e
              simp only at hep hrec
              rw [hep, ← hrec]
            rw [he2]
            exact hwp
          · exact Or.inr heR
      · exact houtR
    · rw [ho] at hout1
      simp [isMovedOrCorrect] at hout1
    · apply ih
      · rw [show keysOf (process_one w cfg src st p).2.files =
            keysOf (renameKey st.files p q) by rw [hfiles]]
        exact nodup_keys_renameKey hnd hqk
      · exact (List.nodup_cons.mp hRnd).2
      · intro r hr
        obtain ⟨⟨g, hg⟩, hwfr⟩ := hR r (List.mem_cons_of_mem _ hr)
        refine ⟨⟨g, ?_⟩, hwfr⟩
        rw [hfiles]
        rw [lookupFS_renameKey_other
          (fun hrp => hpR (by rw [← hrp]; exact hr))
          (fun hrq => hqk (by
            rw [← hrq]
            exact lookupFS_isSome_iff.mp (by rw [hg]; rfl)))]
        exact hg
      · intro e he hsrc
        rw [hfiles] at he
        obtain ⟨e₀, he₀, hform⟩ := mem_renameKey he
        by_cases h00 : e₀.1 = p
        · rw [if_pos h00] at hform
          left
          have hrec : lookupFS st.files e₀.1 = some e₀.2 := mem_lookupFS hnd he₀
          rw [h00, hf] at hrec
          injection hrec with hrec
          rw [hform, ← hrec]
          exact hwq
        · rw [if_neg h00] at hform
          rw [hform]
          rcases hC e₀ he₀ (hform ▸ hsrc) with hw' | hmem
          · exact Or.inl hw'
          · rcases List.mem_cons.mp hmem with hep | heR
            · exact absurd hep h00
            · exact Or.inr heR
      · exact houtR

/-- processing a file that is already exactly at its computed target is a
pure skip. -/
lemma process_one_wellPlaced {w : World} {cfg : Config} {src : Path} {st : State} {p : Path}
    {f : File} (hf : lookupFS st.files p = some f) (hwp : wellPlaced w cfg src (p, f)) :
    process_one w cfg src st p = (.SkippedAlreadyCorrect, st) := by
  rw [process_one_some hf]
  have hpt : p = targetOf w cfg src (fnameOf p) f := hwp
  have hex : existsAt st (targetDirOf w cfg src (fnameOf p) f) = true := by
    apply existsAt_of_le_key (p := p)
    · exact ⟨[fnameOf p], hpt.symm⟩
    · exact lookupFS_isSome_iff.mp (by rw [hf]; rfl)
  rw [if_pos hex]
  exact move_file_src_eq hpt

lemma run_loop_wellPlaced {w : World} {cfg : Config} {src : Path} :
    ∀ (ps : List Path) (st : State),
      (∀ p ∈ ps, ∃ f, lookupFS st.files p = some f ∧ wellPlaced w cfg src (p, f)) →
      run_loop w cfg src st ps = (st, ps.map (fun _ => MoveOutcome.SkippedAlreadyCorrect)) := by
  intro ps
  induction ps with
  | nil => intro st _; rfl
  | cons p ps ih =>
    intro st h
    obtain ⟨f, hf, hwp⟩ := h p (List.mem_cons_self _ _)
    rw [run_loop_cons, process_one_wellPlaced hf hwp]
    rw [ih st (fun q hq => h q (List.mem_cons_of_mem _ hq))]
    simp

/-! Properties of the snapshot walker. -/

lemma collect_mem {st : State} {src p : Path} (hp : p ∈ collect_all_files st src) :
    ∃ e ∈ st.files, e.1 = p ∧ srcUnder src p := by
  unfold collect_all_files at hp
  by_cases hdir : isDirAt st src = true
  · rw [if_pos hdir] at hp
    obtain ⟨e, he, rfl⟩ := List.mem_map.mp hp
    obtain ⟨he', hcond⟩ := List.mem_filter.mp he
    rw [Bool.and_eq_true] at hcond
    exact ⟨e, he', rfl,
      List.isPrefixOf_iff_prefix.mp hcond.1, bne_iff_ne.mp hcond.2⟩
  · rw [if_neg hdir] at hp
    cases hp

lemma collect_mem_of {st : State} {src : Path} {e : Path × File} (he : e ∈ st.files)
    (hs : srcUnder src e.1) : e.1 ∈ collect_all_files st src := by
  unfold collect_all_files
  have hdir : isDirAt st src = true := by
    unfold isDirAt
    rw [Bool.or_eq_true, List.any_eq_true]
    exact Or.inl ⟨e, he, by
      rw [Bool.and_eq_true]
      exact ⟨List.isPrefixOf_iff_prefix.mpr hs.1, bne_iff_ne.mpr hs.2⟩⟩
  rw [if_pos hdir]
  exact List.mem_map.mpr ⟨e, List.mem_filter.mpr ⟨he, by
    rw [Bool.and_eq_true]
    exact ⟨List.isPrefixOf_iff_prefix.mpr hs.1, bne_iff_ne.mpr hs.2⟩⟩, rfl⟩

lemma collect_nodup {st : State} {src : Path} (hnd : (keysOf st.files).Nodup) :
    (collect_all_files st src).Nodup := by
  unfold collect_all_files
  split
  · apply List.Nodup.sublist ?_ hnd
    exact List.Sublist.map _ (List.filter_sublist _)
  · simp

/-! Inversions used by the dry-run and failure-containment claims. -/

lemma move_file_would_inv {w : World} {st : State} {s t q : Path} {dry : Bool}
    (h : (move_file w st s t dry).1 = .WouldMove q) : q = t ∨ q = resolvedPath st t := by
  by_cases hst : s = t
  · rw [move_file_src_eq hst] at h
    exact absurd h (by simp)
  · cases hex : existsAt st t with
    | true =>
      by_cases hc : contentAt st s = contentAt st t
      · rw [move_file_identical_eq hst hex hc] at h
        exact absurd h (by simp)
      · rw [move_file_differ_eq hst hex hc] at h
        cases dry with
        | true =>
          rw [if_pos rfl] at h
          right
          have := h.symm
          simpa using this
        | false =>
          rw [if_neg (by simp)] at h
          split at h <;> exact absurd h (by simp)
    | false =>
      rw [move_file_free_eq hst hex] at h
      cases dry with
      | true =>
        rw [if_pos rfl] at h
        left
        have := h.symm
        simpa using this
      | false =>
        rw [if_neg (by simp)] at h
        split at h <;> exact absurd h (by simp)

lemma dropLast_resolvedPath {st : State} {t : Path} :
    (resolvedPath st t).dropLast = t.dropLast := by
  simp [resolvedPath, List.dropLast_concat]

lemma process_one_moved_dropLast {w : World} {cfg : Config} {src : Path} {st : State}
    {p : Path} {f : File} {q : Path} (hf : lookupFS st.files p = some f)
    (hq : (process_one w cfg src st p).1 = .Moved q ∨
      (process_one w cfg src st p).1 = .WouldMove q) :
    q.dropLast = targetDirOf w cfg src (fnameOf p) f := by
  rw [process_one_some hf] at hq
  have hgen : ∀ (st' : State),
      ((move_file w st' p (targetOf w cfg src (fnameOf p) f) cfg.dry_run).1 = .Moved q ∨
        (move_file w st' p (targetOf w cfg src (fnameOf p) f) cfg.dry_run).1 = .WouldMove q) →
      q.dropLast = targetDirOf w cfg src (fnameOf p) f := by
    intro st' hq'
    have hform : q = targetOf w cfg src (fnameOf p) f ∨
        q = resolvedPath st' (targetOf w cfg src (fnameOf p) f) := by
      rcases hq' with h | h
      · exact (move_file_moved_inv h).2.2.2
      · exact move_file_would_inv h
    rcases hform with rfl | rfl
    · exact dropLast_targetOf
    · rw [dropLast_resolvedPath]
      exact dropLast_targetOf
  by_cases he : existsAt st (targetDirOf w cfg src (fnameOf p) f) = true
  · rw [if_pos he] at hq
    exact hgen st hq
  · rw [if_neg he] at hq
    by_cases hd : cfg.dry_run = true
    · rw [if_pos hd] at hq
      exact hgen st hq
    · rw [if_neg hd] at hq
      by_cases hmk : w.mkdirOk (targetDirOf w cfg src (fnameOf p) f) = true
      · rw [if_pos hmk] at hq
        exact hgen _ hq
      · rw [if_neg hmk] at hq
        rcases hq with h | h <;> exact absurd h (by simp)

lemma process_one_failed {w : World} {cfg : Config} {src : Path} {st : State} {p : Path}
    (h : (process_one w cfg src st p).1 = .Failed) :
    ∃ f, lookupFS st.files p = some f ∧
      (w.mkdirOk (targetDirOf w cfg src (fnameOf p) f) = false ∨
        ∃ b, w.renameOk p b = false) := by
  cases hf : lookupFS st.files p with
  | none =>
    rw [process_one_none hf] at h
    exact absurd h (by simp)
  | some f =>
    refine ⟨f, rfl, ?_⟩
    rw [process_one_some hf] at h
    by_cases he : existsAt st (targetDirOf w cfg src (fnameOf p) f) = true
    · rw [if_pos he] at h
      rcases (move_file_failed_inv h).2 with h1 | h1
      · rw [hf] at h1
        exact absurd h1 (by simp)
      · exact Or.inr h1
    · rw [if_neg he] at h
      by_cases hd : cfg.dry_run = true
      · rw [if_pos hd] at h
        rcases (move_file_failed_inv h).2 with h1 | h1
        · rw [hf] at h1
          exact absurd h1 (by simp)
        · exact Or.inr h1
      · rw [if_neg hd] at h
        by_cases hmk : w.mkdirOk (targetDirOf w cfg src (fnameOf p) f) = true
        · rw [if_pos hmk] at h
          rcases (move_file_failed_inv h).2 with h1 | h1
          · have h1' : (lookupFS st.files p).isSome = false := h1
            rw [hf] at h1'
            exact absurd h1' (by simp)
          · exact Or.inr h1
        · left
          cases hb : w.mkdirOk (targetDirOf w cfg src (fnameOf p) f) with
          | false => rfl
          | true => exact absurd hb hmk

lemma run_loop_containment {w : World} {cfg : Config} {src : Path} {st0 : State} :
    ∀ (ps : List Path) (st : State),
      ps.Nodup →
      (∀ q ∈ ps, lookupFS st.files q = lookupFS st0.files q ∧ q ∈ keysOf st.files) →
      ∀ pr ∈ ps.zip (run_loop w cfg src st ps).2, pr.2 = .Failed →
        ∃ f, lookupFS st0.files pr.1 = some f ∧
          (w.mkdirOk (targetDirOf w cfg src (fnameOf pr.1) f) = false ∨
            ∃ b, w.renameOk pr.1 b = false) := by
  intro ps
  induction ps with
  | nil =>
    intro st _ _ pr hpr
    cases hpr
  | cons p ps ih =>
    intro st hnd hkeep pr hpr hfail
    rw [run_loop_cons] at hpr
    have hz : (p :: ps).zip
        ((process_one w cfg src st p).1 ::
          (run_loop w cfg src (process_one w cfg src st p).2 ps).2) =
        (p, (process_one w cfg src st p).1) ::
          ps.zip ((run_loop w cfg src (process_one w cfg src st p).2 ps).2) := rfl
    rcases List.mem_cons.mp (hz ▸ hpr) with heq | htail
    · obtain ⟨hkp, _⟩ := hkeep p (List.mem_cons_self _ _)
      have hfailp : (process_one w cfg src st p).1 = .Failed := by
        rw [heq] at hfail
        exact hfail
      obtain ⟨f, hf, hcase⟩ := process_one_failed hfailp
      rw [heq]
      exact ⟨f, hkp.symm.trans hf, hcase⟩
    · apply ih (process_one w cfg src st p).2 (List.nodup_cons.mp hnd).2 ?_ pr htail hfail
      intro r hr
      obtain ⟨hkr, hmr⟩ := hkeep r (List.mem_cons_of_mem _ hr)
      have hrp : r ≠ p := fun h => (List.nodup_cons.mp hnd).1 (h ▸ hr)
      have hpres := @process_one_preserve w cfg src st p r hrp hmr
      refine ⟨hpres.trans hkr, ?_⟩
      rw [← lookupFS_isSome_iff, hpres, lookupFS_isSome_iff]
      exact hmr

lemma countP_key_eq_one {l : List Path} {t : Path} (hnd : l.Nodup) (hm : t ∈ l) :
    l.countP (fun k => decide (k = t)) = 1 := by
  induction l with
  | nil => cases hm
  | cons a l ih =>
    simp only [List.countP_cons]
    rcases List.mem_cons.mp hm with rfl | hm'
    · have hnotin := (List.nodup_cons.mp hnd).1
      have hz : l.countP (fun k => decide (k = t)) = 0 := by
        rw [List.countP_eq_zero]
        intro k hk
        simp only [decide_eq_true_eq]
        exact fun h => hnotin (h ▸ hk)
      simp [hz]
    · have ha : ¬ (a = t) := fun h => (List.nodup_cons.mp hnd).1 (h ▸ hm')
      simp [ih (List.nodup_cons.mp hnd).2 hm', ha]

/-! Claim theorems. -/

/-- C2: the metadata resolver (`get_file_time`) is a total function ending
in the three-tier fallback chain: when the statx birth-time query fails or
reports the attribute unsupported (`btime = none`), the Creation result
equals the Modification result; when the `last_write_time` query fails the
Modification result is the current wall-clock time; when the `stat` query
fails the Access result is the current wall-clock time.  No input raises an
unrecoverable error. -/
theorem get_file_time_fallback_chain (q : FileQueries) (now : Int) :
    (q.btime = none → get_file_time q now .Creation = get_file_time q now .Modification) ∧
    (q.mtime = none → get_file_time q now .Modification = now) ∧
    (q.atime = none → get_file_time q now .Access = now) := by
  refine ⟨fun h => ?_, fun h => ?_, fun h => ?_⟩ <;> simp [get_file_time, h]

theorem get_file_time_fallback_chain_witness :
    qNone.btime = none ∧
    get_file_time qNone 7 .Creation = get_file_time qNone 7 .Modification ∧
    get_file_time ⟨none, none, none, none⟩ 7 .Modification = 7 ∧
    get_file_time ⟨none, none, none, none⟩ 7 .Access = 7 :=
  ⟨rfl, (get_file_time_fallback_chain qNone 7).1 rfl,
    (get_file_time_fallback_chain ⟨none, none, none, none⟩ 7).2.1 rfl,
    (get_file_time_fallback_chain ⟨none, none, none, none⟩ 7).2.2 rfl⟩

/-- C6 counterexample: the boundary identity `classify(small_max) = medium`
claimed for every thresholds fails for the degenerate thresholds
`small_max = medium_max = 5`: the classifier returns `large` at 5. -/
theorem categorize_size_boundary_cex :
    categorize_size 5 ⟨5, 5⟩ = nm "large" ∧ categorize_size 5 ⟨5, 5⟩ ≠ nm "medium" := by
  decide

/-- C6 (amended): the size classifier is a pure total function and, for
every size and every thresholds, follows `size < small_max → small`,
otherwise `size < medium_max → medium`, otherwise `large`; and provided
the thresholds are non-degenerate (`0 < small_max < medium_max`), the
boundary identities `classify (small_max - 1) = small`,
`classify small_max = medium`, `classify (medium_max - 1) = medium` and
`classify medium_max = large` hold. -/
theorem categorize_size_spec (size : Nat) (th : SizeThresholds) :
    (size < th.small → categorize_size size th = nm "small") ∧
    (th.small ≤ size → size < th.medium → categorize_size size th = nm "medium") ∧
    (th.small ≤ size → th.medium ≤ size → categorize_size size th = nm "large") ∧
    (0 < th.small → th.small < th.medium →
      categorize_size (th.small - 1) th = nm "small" ∧
      categorize_size th.small th = nm "medium" ∧
      categorize_size (th.medium - 1) th = nm "medium" ∧
      categorize_size th.medium th = nm "large") := by
  refine ⟨fun h => ?_, fun ha hb => ?_, fun ha hb => ?_, fun h1 h2 => ⟨?_, ?_, ?_, ?_⟩⟩ <;>
    · simp only [categorize_size]
      split_ifs <;> first | rfl | omega

theorem categorize_size_spec_witness :
    (0 : Nat) < ({} : SizeThresholds).small ∧
    categorize_size 0 {} = nm "small" ∧
    0 < ({} : SizeThresholds).small ∧ ({} : SizeThresholds).small < ({} : SizeThresholds).medium ∧
    categorize_size (({} : SizeThresholds).small - 1) {} = nm "small" ∧
    categorize_size ({} : SizeThresholds).small {} = nm "medium" ∧
    categorize_size (({} : SizeThresholds).medium - 1) {} = nm "medium" ∧
    categorize_size ({} : SizeThresholds).medium {} = nm "large" := by
  have h := categorize_size_spec 0 {}
  have hb := h.2.2.2 (by decide) (by decide)
  exact ⟨by decide, h.1 (by decide), by decide, by decide, hb.1, hb.2.1, hb.2.2.1, hb.2.2.2⟩

/-- C10: when the byte-size query fails (`size = none`), the pipeline does
not abort or skip the file: `get_metadata_based_dir` substitutes size 0, so
whenever `small_max` is positive the file's directory ends in the `small`
bucket and the relocation proceeds there. -/
theorem size_query_failure_small (loc : Int → Date) (q : FileQueries) (now : Int)
    (attr : TimeAttribute) (th : SizeThresholds) (hs : q.size = none) (hpos : 0 < th.small) :
    get_metadata_based_dir loc q now attr th =
      [fmtYear (loc (get_file_time q now attr)).year,
       pad2 (loc (get_file_time q now attr)).month,
       pad2 (loc (get_file_time q now attr)).day, nm "small"] := by
  simp [get_metadata_based_dir, hs, categorize_size, hpos]

theorem size_query_failure_small_witness :
    qNone.size = none ∧ 0 < ({} : SizeThresholds).small ∧
    get_metadata_based_dir locM qNone 0 .Modification {} =
      [fmtYear (locM (get_file_time qNone 0 .Modification)).year,
       pad2 (locM (get_file_time qNone 0 .Modification)).month,
       pad2 (locM (get_file_time qNone 0 .Modification)).day, nm "small"] :=
  ⟨rfl, by decide, size_query_failure_small locM qNone 0 .Modification {} rfl (by decide)⟩

/-- C3: when the candidate target exists at a different path with
byte-identical content, `move_file` skips the file as `SkippedIdentical`
(a success) with no state change whatsoever — the source stays in place and
no content is deleted — and exactly one file sits at the target path. -/
theorem move_file_skips_identical (w : World) (st : State) (s t : Path) (dry : Bool)
    (tf : File) (hnd : (keysOf st.files).Nodup) (hne : s ≠ t)
    (ht : lookupFS st.files t = some tf) (hc : contentAt st s = tf.content) :
    move_file w st s t dry = (.SkippedIdentical, st) ∧
    st.files.countP (fun e => decide (e.1 = t)) = 1 := by
  have hmem : t ∈ keysOf st.files := lookupFS_isSome_iff.mp (by rw [ht]; rfl)
  have htc : contentAt st t = tf.content := by simp [contentAt, ht]
  refine ⟨move_file_identical_eq hne (existsAt_of_key hmem) (hc.trans htc.symm), ?_⟩
  have hone := countP_key_eq_one hnd hmem
  rw [keysOf, List.countP_map] at hone
  exact hone

theorem move_file_skips_identical_witness :
    move_file wUnit stTwoSame [nm "root", nm "b", nm "x.txt"] [nm "root", nm "a", nm "x.txt"]
      false = (.SkippedIdentical, stTwoSame) ∧
    stTwoSame.files.countP (fun e => decide (e.1 = [nm "root", nm "a", nm "x.txt"])) = 1 :=
  move_file_skips_identical wUnit stTwoSame _ _ false fileA (by decide) (by decide)
    (by decide) (by decide)

/-- C4: when the candidate target exists at a different path with differing
content, `move_file` renames the source to `stem_N.ext` built from the
target's stem and original extension, where N is the first index from 1
whose candidate name does not exist; afterwards both the original target
and the moved file exist. -/
theorem move_file_disambiguates (w : World) (st : State) (s t : Path) (tf sf : File)
    (hnd : (keysOf st.files).Nodup) (hne : s ≠ t)
    (ht : lookupFS st.files t = some tf) (hs : lookupFS st.files s = some sf)
    (hc : sf.content ≠ tf.content) (hr : ∀ a b, w.renameOk a b = true) :
    ∃ k, 1 ≤ k ∧
      (move_file w st s t false).1 =
        .Moved (t.dropLast ++ [cand (splitExt (fnameOf t)).1 (splitExt (fnameOf t)).2 k]) ∧
      (move_file w st s t false).2.files =
        renameKey st.files s
          (t.dropLast ++ [cand (splitExt (fnameOf t)).1 (splitExt (fnameOf t)).2 k]) ∧
      (move_file w st s t false).2.dirs = st.dirs ∧
      existsAt st (t.dropLast ++ [cand (splitExt (fnameOf t)).1 (splitExt (fnameOf t)).2 k])
        = false ∧
      (∀ m, 1 ≤ m → m < k →
        existsAt st (t.dropLast ++ [cand (splitExt (fnameOf t)).1 (splitExt (fnameOf t)).2 m])
          = true) ∧
      lookupFS (move_file w st s t false).2.files t = some tf ∧
      lookupFS (move_file w st s t false).2.files
        (t.dropLast ++ [cand (splitExt (fnameOf t)).1 (splitExt (fnameOf t)).2 k]) = some sf := by
  have htm : t ∈ keysOf st.files := lookupFS_isSome_iff.mp (by rw [ht]; rfl)
  have hex : existsAt st t = true := existsAt_of_key htm
  have hcc : contentAt st s ≠ contentAt st t := by
    have h1 : contentAt st s = sf.content := by simp [contentAt, hs]
    have h2 : contentAt st t = tf.content := by simp [contentAt, ht]
    rw [h1, h2]
    exact hc
  have heq := @move_file_differ_eq w st s t false hne hex hcc
  have hguard : ((lookupFS st.files s).isSome && w.renameOk s (resolvedPath st t)) = true := by
    rw [hs, hr]
    rfl
  have hmf : move_file w st s t false =
      (.Moved (resolvedPath st t), { st with files := renameKey st.files s (resolvedPath st t) }) := by
    rw [heq, if_neg (by simp), if_pos hguard]
  obtain ⟨hfree, hone, hmin⟩ := resolvedPath_free st t
  have hnmem : resolvedPath st t ∉ keysOf st.files := not_mem_keys_of_not_existsAt hfree
  refine ⟨suffixCounter st t, hone, by rw [hmf]; rfl, by rw [hmf]; rfl, by rw [hmf],
    hfree, hmin, ?_, ?_⟩
  · rw [hmf]
    show lookupFS (renameKey st.files s (resolvedPath st t)) t = some tf
    rw [lookupFS_renameKey_other (fun h => hne h.symm)
      (fun h => hnmem (by rw [← h]; exact htm))]
    exact ht
  · rw [hmf]
    show lookupFS (renameKey st.files s (resolvedPath st t)) (resolvedPath st t) = some sf
    exact lookupFS_renameKey_dst hnd hnmem hs

/-- C5 counterexample: the extension directory segment is the extension
verbatim, not lowercased: the file `photo.JPG` is moved into the directory
segment `JPG`, while the claim demands the lowercased `jpg`. -/
theorem extension_not_lowercased_cex :
    (process_one wUnit cfgM rootP stJPG [nm "root", nm "d", nm "photo.JPG"]).1 =
      MoveOutcome.Moved [nm "root", nm "JPG", nm "2024", nm "05", nm "03", nm "small",
        nm "photo.JPG"] ∧
    nm "JPG" ≠ nm "jpg" := by
  decide

/-- C5 (amended): the relative target directory of every move (real or
dry-run) the engine emits for a file is exactly
`extension/year/month/day/size_category`, in that fixed order, where the
extension segment is the extension without its leading dot taken verbatim
(not lowercased), or the literal `no_extension` when the file has no
extension. -/
theorem target_dir_fixed_order (w : World) (cfg : Config) (src : Path) (st : State)
    (p : Path) (f : File) (q : Path) (hf : lookupFS st.files p = some f)
    (hq : (process_one w cfg src st p).1 = .Moved q ∨
      (process_one w cfg src st p).1 = .WouldMove q) :
    q.dropLast =
      src ++ [extSegOf (fnameOf p),
        fmtYear (w.loc (get_file_time (queriesOf f) 0 cfg.attr)).year,
        pad2 (w.loc (get_file_time (queriesOf f) 0 cfg.attr)).month,
        pad2 (w.loc (get_file_time (queriesOf f) 0 cfg.attr)).day,
        categorize_size f.content.length cfg.thresholds] ∧
    extSegOf (fnameOf p) =
      (if (splitExt (fnameOf p)).2 = [] then nm "no_extension"
       else (splitExt (fnameOf p)).2.drop 1) := by
  refine ⟨?_, rfl⟩
  rw [process_one_moved_dropLast hf hq]
  simp [targetDirOf, get_metadata_based_dir, queriesOf]

theorem target_dir_fixed_order_witness :
    lookupFS stJPG.files [nm "root", nm "d", nm "photo.JPG"] = some fileA ∧
    ([nm "root", nm "JPG", nm "2024", nm "05", nm "03", nm "small",
        nm "photo.JPG"] : Path).dropLast =
      rootP ++ [extSegOf (fnameOf [nm "root", nm "d", nm "photo.JPG"]),
        fmtYear (wUnit.loc (get_file_time (queriesOf fileA) 0 cfgM.attr)).year,
        pad2 (wUnit.loc (get_file_time (queriesOf fileA) 0 cfgM.attr)).month,
        pad2 (wUnit.loc (get_file_time (queriesOf fileA) 0 cfgM.attr)).day,
        categorize_size fileA.content.length cfgM.thresholds] ∧
    extSegOf (fnameOf [nm "root", nm "d", nm "photo.JPG"]) =
      (if (splitExt (fnameOf [nm "root", nm "d", nm "photo.JPG"])).2 = [] then nm "no_extension"
       else (splitExt (fnameOf [nm "root", nm "d", nm "photo.JPG"])).2.drop 1) := by
  have h := target_dir_fixed_order wUnit cfgM rootP stJPG [nm "root", nm "d", nm "photo.JPG"]
    fileA [nm "root", nm "JPG", nm "2024", nm "05", nm "03", nm "small", nm "photo.JPG"]
    (by decide) (Or.inl (by decide))
  exact ⟨by decide, h.1, h.2⟩

/-- C7 counterexample: a run whose source path does not name a directory
does not abort with a non-zero exit code: the walker's exception is caught,
zero files are collected, and `main` returns exit code 0. -/
theorem missing_source_exit_code_cex :
    isDirAt stEmpty [nm "gone"] = false ∧
    (main_run wUnit cfgM stEmpty [nm "gone"]).1 = 0 := by
  decide

/-- C7 (amended): for every run whose source path is missing or is not a
directory, no relocation work is performed — the state is untouched and no
file outcome is produced — but the process exits with code 0 (the walker
logs the error and returns an empty snapshot), not with a non-zero code. -/
theorem main_run_not_directory (w : World) (cfg : Config) (st : State) (src : Path)
    (h : isDirAt st src = false) : main_run w cfg st src = (0, st, []) := by
  unfold main_run move_files_by_extension_and_metadata collect_all_files
  rw [if_neg (by rw [h]; exact Bool.noConfusion)]
  rfl

theorem main_run_not_directory_witness :
    isDirAt stEmpty [nm "gone"] = false ∧
    main_run wFail cfgMD stEmpty [nm "gone"] = (0, stEmpty, []) :=
  ⟨by decide, main_run_not_directory wFail cfgMD stEmpty [nm "gone"] (by decide)⟩

/-- C8 counterexample: the sequence of dry-run logged intended actions does
not always equal the sequence of moves a non-dry-run performs on the same
tree: with two differing files named `x.txt` the dry run announces the same
target twice, while the real run moves the second file to `x_1.txt`. -/
theorem dry_run_log_cex :
    (move_files_by_extension_and_metadata wUnit cfgMD rootP stTwoDiff).2.map intended ≠
      (move_files_by_extension_and_metadata wUnit cfgM rootP stTwoDiff).2 := by
  decide

/-- C8 (amended): with dry-run enabled the engine leaves the filesystem
state completely unchanged, and each logged intended action equals the move
a non-dry-run would perform for that file evaluated against the initial
(pre-run) tree; the full sequences of a dry run and a real run coincide
only when earlier real moves do not affect later files' decisions. -/
theorem dry_run_frame (w : World) (cfg : Config) (src : Path) (st : State)
    (hd : cfg.dry_run = true) (hw : healthy w) :
    (move_files_by_extension_and_metadata w cfg src st).1 = st ∧
    (move_files_by_extension_and_metadata w cfg src st).2.map intended =
      (collect_all_files st src).map
        (fun p => (process_one w { cfg with dry_run := false } src st p).1) := by
  have h := @run_loop_dry w cfg src hd (collect_all_files st src) st
  have hengine : move_files_by_extension_and_metadata w cfg src st =
      run_loop w cfg src st (collect_all_files st src) := rfl
  constructor
  · rw [hengine, h]
  · rw [hengine, h]
    show ((collect_all_files st src).map
      (fun p => (process_one w cfg src st p).1)).map intended = _
    rw [List.map_map]
    apply List.map_congr_left
    intro p _
    exact process_one_intended hd hw

theorem dry_run_frame_witness :
    cfgMD.dry_run = true ∧ healthy wUnit ∧
    (move_files_by_extension_and_metadata wUnit cfgMD rootP stTwoDiff).1 = stTwoDiff ∧
    (move_files_by_extension_and_metadata wUnit cfgMD rootP stTwoDiff).2.map intended =
      (collect_all_files stTwoDiff rootP).map
        (fun p => (process_one wUnit { cfgMD with dry_run := false } rootP stTwoDiff p).1) :=
  ⟨rfl, ⟨fun _ _ => rfl, fun _ => rfl⟩,
    (dry_run_frame wUnit cfgMD rootP stTwoDiff rfl ⟨fun _ _ => rfl, fun _ => rfl⟩).1,
    (dry_run_frame wUnit cfgMD rootP stTwoDiff rfl ⟨fun _ _ => rfl, fun _ => rfl⟩).2⟩

/-- C9: an injected I/O failure never aborts the batch and marks only its
own file as failed: the engine emits exactly one outcome per snapshot
entry, and an entry's outcome can be `Failed` only if the world refuses to
rename that entry itself (`B`) or refuses to create that entry's own
computed target directory (`D`). -/
theorem failure_containment (w : World) (cfg : Config) (src : Path) (st : State)
    (B D : Path → Bool)
    (hrn : w.renameOk = fun a _ => ! B a) (hmk : w.mkdirOk = fun d => ! D d)
    (hnd : (keysOf st.files).Nodup) :
    (move_files_by_extension_and_metadata w cfg src st).2.length =
      (collect_all_files st src).length ∧
    ∀ pr ∈ (collect_all_files st src).zip
        (move_files_by_extension_and_metadata w cfg src st).2,
      pr.2 = MoveOutcome.Failed →
        B pr.1 = true ∨
        ∃ f, lookupFS st.files pr.1 = some f ∧
          D (targetDirOf w cfg src (fnameOf pr.1) f) = true := by
  constructor
  · exact run_loop_length _ _
  · intro pr hpr hfail
    have hcontain := @run_loop_containment w cfg src st (collect_all_files st src) st
      (collect_nodup hnd) ?_ pr hpr hfail
    · obtain ⟨f, hf, hcase⟩ := hcontain
      rcases hcase with hD | ⟨b, hB⟩
      · right
        refine ⟨f, hf, ?_⟩
        rw [hmk] at hD
        simpa using hD
      · left
        rw [hrn] at hB
        simpa using hB
    · intro r hr
      obtain ⟨e, he, rfl, _⟩ := collect_mem hr
      exact ⟨rfl, List.mem_map.mpr ⟨e, he, rfl⟩⟩

theorem failure_containment_witness :
    (move_files_by_extension_and_metadata wFail cfgM rootP stTwoDiff).2.length =
      (collect_all_files stTwoDiff rootP).length ∧
    ∀ pr ∈ (collect_all_files stTwoDiff rootP).zip
        (move_files_by_extension_and_metadata wFail cfgM rootP stTwoDiff).2,
      pr.2 = MoveOutcome.Failed →
        failB pr.1 = true ∨
        ∃ f, lookupFS stTwoDiff.files pr.1 = some f ∧
          (fun _ => false : Path → Bool) (targetDirOf wFail cfgM rootP (fnameOf pr.1) f)
            = true :=
  failure_containment wFail cfgM rootP stTwoDiff failB (fun _ => false) rfl rfl (by decide)

/-- C1 counterexample: re-running the engine does not report every file as
`SkippedAlreadyCorrect`: with two byte-identical files named `x.txt`, the
first run leaves the duplicate in place as `SkippedIdentical`, and the
second run reports it `SkippedIdentical` again. -/
theorem run_twice_cex :
    (move_files_by_extension_and_metadata wUnit cfgM rootP
        (move_files_by_extension_and_metadata wUnit cfgM rootP stTwoSame).1).2 =
      [MoveOutcome.SkippedAlreadyCorrect, MoveOutcome.SkippedIdentical] ∧
    MoveOutcome.SkippedIdentical ≠ MoveOutcome.SkippedAlreadyCorrect := by
  decide

/-- C1 (amended): if a healthy, non-dry first run reports every file as
moved or already correct (in particular, no identical-content duplicate was
left in place), then a second run with the same time attribute and
thresholds performs zero moves, reports every outcome
`SkippedAlreadyCorrect`, and leaves the tree byte-identical to the tree
after the first run. -/
theorem run_twice_idempotent (w : World) (cfg : Config) (src : Path) (st0 : State)
    (hw : healthy w) (hdry : cfg.dry_run = false)
    (hnd : (keysOf st0.files).Nodup)
    (hwf : ∀ e ∈ st0.files, wfName (fnameOf e.1))
    (h1 : ∀ o ∈ (move_files_by_extension_and_metadata w cfg src st0).2,
      isMovedOrCorrect o = true) :
    (move_files_by_extension_and_metadata w cfg src
        (move_files_by_extension_and_metadata w cfg src st0).1).1 =
      (move_files_by_extension_and_metadata w cfg src st0).1 ∧
    ∀ o ∈ (move_files_by_extension_and_metadata w cfg src
        (move_files_by_extension_and_metadata w cfg src st0).1).2,
      o = MoveOutcome.SkippedAlreadyCorrect := by
  have hengine : ∀ st : State, move_files_by_extension_and_metadata w cfg src st =
      run_loop w cfg src st (collect_all_files st src) := fun _ => rfl
  have hR0 : ∀ r ∈ collect_all_files st0 src,
      (∃ f, lookupFS st0.files r = some f) ∧ wfName (fnameOf r) := by
    intro r hr
    obtain ⟨e, he, rfl, _⟩ := collect_mem hr
    exact ⟨⟨e.2, mem_lookupFS hnd he⟩, hwf e he⟩
  have hC0 : ∀ e ∈ st0.files, srcUnder src e.1 →
      wellPlaced w cfg src e ∨ e.1 ∈ collect_all_files st0 src := by
    intro e he hsrc
    exact Or.inr (collect_mem_of he hsrc)
  have hout : ∀ o ∈ (run_loop w cfg src st0 (collect_all_files st0 src)).2,
      isMovedOrCorrect o = true := by
    rw [← hengine st0]
    exact h1
  obtain ⟨hnd1, hwp1⟩ := @run1_invariant w cfg src hw hdry (collect_all_files st0 src) st0
    hnd (collect_nodup hnd) hR0 hC0 hout
  have hpre2 : ∀ p ∈ collect_all_files (run_loop w cfg src st0 (collect_all_files st0 src)).1
      src, ∃ f, lookupFS (run_loop w cfg src st0 (collect_all_files st0 src)).1.files p
        = some f ∧ wellPlaced w cfg src (p, f) := by
    intro p hp
    obtain ⟨e, he, rfl, hsrc⟩ := collect_mem hp
    exact ⟨e.2, mem_lookupFS hnd1 he, hwp1 e he hsrc⟩
  have hrun2 := @run_loop_wellPlaced w cfg src _ _ hpre2
  constructor
  · rw [hengine st0, hengine (run_loop w cfg src st0 (collect_all_files st0 src)).1, hrun2]
  · rw [hengine st0, hengine (run_loop w cfg src st0 (collect_all_files st0 src)).1, hrun2]
    intro o ho
    obtain ⟨p, _, hpo⟩ := List.mem_map.mp ho
    exact hpo.symm

theorem run_twice_idempotent_witness :
    healthy wUnit ∧ cfgM.dry_run = false ∧
    (keysOf stTwoNames.files).Nodup ∧
    (∀ e ∈ stTwoNames.files, wfName (fnameOf e.1)) ∧
    (∀ o ∈ (move_files_by_extension_and_metadata wUnit cfgM rootP stTwoNames).2,
      isMovedOrCorrect o = true) ∧
    (move_files_by_extension_and_metadata wUnit cfgM rootP
        (move_files_by_extension_and_metadata wUnit cfgM rootP stTwoNames).1).1 =
      (move_files_by_extension_and_metadata wUnit cfgM rootP stTwoNames).1 ∧
    ∀ o ∈ (move_files_by_extension_and_metadata wUnit cfgM rootP
        (move_files_by_extension_and_metadata wUnit cfgM rootP stTwoNames).1).2,
      o = MoveOutcome.SkippedAlreadyCorrect := by
  have hw : healthy wUnit := ⟨fun _ _ => rfl, fun _ => rfl⟩
  have h := run_twice_idempotent wUnit cfgM rootP stTwoNames hw rfl (by decide)
    (by decide) (by decide)
  exact ⟨hw, rfl, by decide, by decide, by decide, h.1, h.2⟩

theorem move_file_disambiguates_witness :
    ∃ k, 1 ≤ k ∧
      (move_file wUnit stTwoDiff [nm "root", nm "b", nm "x.txt"] [nm "root", nm "a", nm "x.txt"]
          false).1 =
        .Moved ([nm "root", nm "a", nm "x.txt"].dropLast ++
          [cand (splitExt (fnameOf [nm "root", nm "a", nm "x.txt"])).1
            (splitExt (fnameOf [nm "root", nm "a", nm "x.txt"])).2 k]) ∧
      (move_file wUnit stTwoDiff [nm "root", nm "b", nm "x.txt"] [nm "root", nm "a", nm "x.txt"]
          false).2.files =
        renameKey stTwoDiff.files [nm "root", nm "b", nm "x.txt"]
          ([nm "root", nm "a", nm "x.txt"].dropLast ++
            [cand (splitExt (fnameOf [nm "root", nm "a", nm "x.txt"])).1
              (splitExt (fnameOf [nm "root", nm "a", nm "x.txt"])).2 k]) ∧
      (move_file wUnit stTwoDiff [nm "root", nm "b", nm "x.txt"] [nm "root", nm "a", nm "x.txt"]
          false).2.dirs = stTwoDiff.dirs ∧
      existsAt stTwoDiff ([nm "root", nm "a", nm "x.txt"].dropLast ++
        [cand (splitExt (fnameOf [nm "root", nm "a", nm "x.txt"])).1
          (splitExt (fnameOf [nm "root", nm "a", nm "x.txt"])).2 k]) = false ∧
      (∀ m, 1 ≤ m → m < k →
        existsAt stTwoDiff ([nm "root", nm "a", nm "x.txt"].dropLast ++
          [cand (splitExt (fnameOf [nm "root", nm "a", nm "x.txt"])).1
            (splitExt (fnameOf [nm "root", nm "a", nm "x.txt"])).2 m]) = true) ∧
      lookupFS (move_file wUnit stTwoDiff [nm "root", nm "b", nm "x.txt"]
          [nm "root", nm "a", nm "x.txt"] false).2.files [nm "root", nm "a", nm "x.txt"]
        = some fileA ∧
      lookupFS (move_file wUnit stTwoDiff [nm "root", nm "b", nm "x.txt"]
          [nm "root", nm "a", nm "x.txt"] false).2.files
        ([nm "root", nm "a", nm "x.txt"].dropLast ++
          [cand (splitExt (fnameOf [nm "root", nm "a", nm "x.txt"])).1
            (splitExt (fnameOf [nm "root", nm "a", nm "x.txt"])).2 k]) = some fileB :=
  move_file_disambiguates wUnit stTwoDiff _ _ fileA fileB (by decide) (by decide) (by decide)
    (by decide) (by decide) (fun _ _ => rfl)

end FileOrganizer
